import Mathlib

/-!
# Verification of the LogsQL block-level filter evaluator

This development gives a shallow embedding of the block-level filter
evaluator of the columnar log-storage engine (package `logstorage`):
the bitmap working set, the `filterNot` / `filterOr` combinators, the
leaf filters `filterRange`, `filterStringRange` and
`filterAnyCasePhrase`, the `fieldsSet` helper, the `count_empty`
stats aggregator, and a query-language fragment used for the parser
round-trip property.

Go byte strings are embedded as `List Nat` (one entry per byte);
float64 filter bounds are embedded as exact rational pairs (every
finite IEEE-754 double is a rational); bitmaps are embedded as
`List Bool` indexed by row.
-/

/-- Go byte strings (one `Nat` per byte). -/
abbrev GoStr := List Nat

/-- Bytes of an ASCII Lean string literal, for concrete examples. -/
def gostr (s : String) : GoStr := s.data.map Char.toNat

/-- Byte-wise lexicographic strict order, Go's `<` on strings. -/
def goLt : GoStr → GoStr → Bool
  | [], [] => false
  | [], _ :: _ => true
  | _ :: _, [] => false
  | a :: as, b :: bs => if a < b then true else if b < a then false else goLt as bs

/-- Go's `<=` on strings: the order is total, so `a <= b ↔ ¬ (b < a)`. -/
def goLe (a b : GoStr) : Bool := !(goLt b a)

/-!
## Bitmap

Modelled from the spec: the `bitmap` type of the source is a fixed-length
packed bitset with `setBits`, `resetBits`, `copyFrom`, `or`, `andNot`,
`isZero`, `onesCount` and `forEachSetBit(fn)` where the callback returns
whether the bit remains set.  Only the callers of these operations are in
the sources; the operations themselves are embedded as functions on
`List Bool` (one entry per row).  `copyFrom` is value assignment, and
`getBitmap(n)` yields a zeroed bitmap of length `n`.
-/

/-- A bitmap of per-row bits; index = row number inside the block. -/
abbrev bitmap := List Bool

/-- Modelled from the spec: `resetBits` clears every bit. -/
def bitmap.resetBits (bm : bitmap) : bitmap := bm.map fun _ => false

/-- Modelled from the spec: `setBits` sets every bit. -/
def bitmap.setBits (bm : bitmap) : bitmap := bm.map fun _ => true

/-- Modelled from the spec: `a.or b` sets the bits set in `b`. -/
def bitmap.or : bitmap → bitmap → bitmap
  | [], _ => []
  | _ :: _, [] => []
  | a :: as, b :: bs => (a || b) :: bitmap.or as bs

/-- Modelled from the spec: `a.andNot b` clears the bits set in `b`. -/
def bitmap.andNot : bitmap → bitmap → bitmap
  | [], _ => []
  | _ :: _, [] => []
  | a :: as, b :: bs => (a && !b) :: bitmap.andNot as bs

/-- Modelled from the spec: `isZero` reports whether no bit is set. -/
def bitmap.isZero (bm : bitmap) : Bool := !bm.contains true

/-- Modelled from the spec: `onesCount` counts the set bits. -/
def bitmap.onesCount (bm : bitmap) : Nat := bm.count true

/-- Modelled from the spec: `forEachSetBit` visits every set bit and
keeps it iff the callback returns true; cleared bits stay cleared. -/
def bitmap.forEachSetBit (f : Nat → Bool) : bitmap → bitmap
  | [] => []
  | b :: bs => (b && f 0) :: bitmap.forEachSetBit (fun i => f (i + 1)) bs

/-- Modelled from the spec: `getBitmap(n)` yields a zeroed bitmap. -/
def zeroBitmap (n : Nat) : bitmap := List.replicate n false

/-- `i`-th bit of a bitmap (false beyond the end). -/
def bitmap.bit (bm : bitmap) (i : Nat) : Bool := bm.getD i false

/-- `a` is a sub-bitmap of `b`: every set bit of `a` is set in `b`. -/
def bitmap.subset (a b : bitmap) : Prop := ∀ i : Nat, a.bit i = true → b.bit i = true

/-!
## The NOT and OR combinators

`filterNot.apply` and `filterOr.apply` from the sources.  In Go the
children are reached through the `filter` interface; the embedding takes
the child `apply` functions (with the enclosing `blockSearch` already
applied) as explicit function arguments.
-/

/-- `filterNot.apply`: copy the bitmap, apply the inner filter to the
copy, and subtract the surviving bits from the original. -/
def filterNotApply (f : bitmap → bitmap) (bm : bitmap) : bitmap :=
  bm.andNot (f bm)

/-- The loop body of `filterOr.apply`: `bmResult` accumulates the union
of the branch results; each branch is applied to `bm.andNot bmResult`,
and the loop breaks early once that difference is zero. -/
def filterOrLoop (bm : bitmap) : List (bitmap → bitmap) → bitmap → bitmap
  | [], bmResult => bmResult
  | f :: rest, bmResult =>
    let bmTmp := bm.andNot bmResult
    if bmTmp.isZero then bmResult
    else filterOrLoop bm rest (bmResult.or (f bmTmp))

/-- `filterOr.apply`: run the incremental OR loop starting from a zeroed
accumulator and copy the result back into the caller's bitmap. -/
def filterOrApply (fs : List (bitmap → bitmap)) (bm : bitmap) : bitmap :=
  filterOrLoop bm fs (zeroBitmap bm.length)

/-- The naive OR evaluation: apply every branch to a full private copy of
the input bitmap and union the results. -/
def filterOrNaive (fs : List (bitmap → bitmap)) (bm : bitmap) : bitmap :=
  fs.foldl (fun acc f => acc.or (f bm)) (zeroBitmap bm.length)

/-- Pointwise AND of two bitmaps; `bm.and p` is "intersect with the fixed
set of matching rows `p`". -/
def bitmap.and : bitmap → bitmap → bitmap
  | [], _ => []
  | _ :: _, [] => []
  | a :: as, b :: bs => (a && b) :: bitmap.and as bs

section BitmapLemmas

theorem bitmap.length_or (a b : bitmap) : (a.or b).length = min a.length b.length := by
  induction a generalizing b with
  | nil => simp [bitmap.or]
  | cons x xs ih =>
    cases b with
    | nil => simp [bitmap.or]
    | cons y ys => simp [bitmap.or, ih, Nat.succ_min_succ]

theorem bitmap.length_andNot (a b : bitmap) :
    (a.andNot b).length = min a.length b.length := by
  induction a generalizing b with
  | nil => simp [bitmap.andNot]
  | cons x xs ih =>
    cases b with
    | nil => simp [bitmap.andNot]
    | cons y ys => simp [bitmap.andNot, ih, Nat.succ_min_succ]

theorem bitmap.length_and (a b : bitmap) : (a.and b).length = min a.length b.length := by
  induction a generalizing b with
  | nil => simp [bitmap.and]
  | cons x xs ih =>
    cases b with
    | nil => simp [bitmap.and]
    | cons y ys => simp [bitmap.and, ih, Nat.succ_min_succ]

theorem bitmap.length_resetBits (bm : bitmap) : bm.resetBits.length = bm.length := by
  simp [bitmap.resetBits]

theorem bitmap.length_forEachSetBit (f : Nat → Bool) (bm : bitmap) :
    (bm.forEachSetBit f).length = bm.length := by
  induction bm generalizing f with
  | nil => rfl
  | cons b bs ih => simp [bitmap.forEachSetBit, ih]

theorem bitmap.bit_or (a b : bitmap) (i : Nat) (h : a.length = b.length) :
    (a.or b).bit i = (a.bit i || b.bit i) := by
  induction a generalizing b i with
  | nil =>
    cases b with
    | nil => simp [bitmap.or, bitmap.bit]
    | cons y ys => simp at h
  | cons x xs ih =>
    cases b with
    | nil => simp at h
    | cons y ys =>
      cases i with
      | zero => simp [bitmap.or, bitmap.bit]
      | succ n =>
        simp only [bitmap.or, bitmap.bit, List.getD_cons_succ]
        exact ih ys n (by simpa using h)

theorem bitmap.bit_andNot (a b : bitmap) (i : Nat) (h : a.length = b.length) :
    (a.andNot b).bit i = (a.bit i && !b.bit i) := by
  induction a generalizing b i with
  | nil =>
    cases b with
    | nil => simp [bitmap.andNot, bitmap.bit]
    | cons y ys => simp at h
  | cons x xs ih =>
    cases b with
    | nil => simp at h
    | cons y ys =>
      cases i with
      | zero => simp [bitmap.andNot, bitmap.bit]
      | succ n =>
        simp only [bitmap.andNot, bitmap.bit, List.getD_cons_succ]
        exact ih ys n (by simpa using h)

theorem bitmap.bit_and (a b : bitmap) (i : Nat) (h : a.length = b.length) :
    (a.and b).bit i = (a.bit i && b.bit i) := by
  induction a generalizing b i with
  | nil =>
    cases b with
    | nil => simp [bitmap.and, bitmap.bit]
    | cons y ys => simp at h
  | cons x xs ih =>
    cases b with
    | nil => simp at h
    | cons y ys =>
      cases i with
      | zero => simp [bitmap.and, bitmap.bit]
      | succ n =>
        simp only [bitmap.and, bitmap.bit, List.getD_cons_succ]
        exact ih ys n (by simpa using h)

theorem bitmap.bit_resetBits (bm : bitmap) (i : Nat) : bm.resetBits.bit i = false := by
  induction bm generalizing i with
  | nil => simp [bitmap.resetBits, bitmap.bit]
  | cons b bs ih =>
    cases i with
    | zero => simp [bitmap.resetBits, bitmap.bit]
    | succ n =>
      simp only [bitmap.resetBits, List.map_cons, bitmap.bit, List.getD_cons_succ]
      exact ih n

theorem bitmap.bit_forEachSetBit (f : Nat → Bool) (bm : bitmap) (i : Nat) :
    (bm.forEachSetBit f).bit i = (bm.bit i && f i) := by
  induction bm generalizing f i with
  | nil => simp [bitmap.forEachSetBit, bitmap.bit]
  | cons b bs ih =>
    cases i with
    | zero => simp [bitmap.forEachSetBit, bitmap.bit]
    | succ n =>
      simp only [bitmap.forEachSetBit, bitmap.bit, List.getD_cons_succ]
      exact ih (fun j => f (j + 1)) n

theorem bitmap.bit_zeroBitmap (n i : Nat) : (zeroBitmap n).bit i = false := by
  induction n generalizing i with
  | zero => simp [zeroBitmap, bitmap.bit]
  | succ m ih =>
    cases i with
    | zero => simp [zeroBitmap, bitmap.bit]
    | succ j =>
      simp only [zeroBitmap, List.replicate, bitmap.bit, List.getD_cons_succ]
      exact ih j

theorem bitmap.subset_resetBits (bm bm' : bitmap) : bm'.resetBits.subset bm := by
  intro i h
  rw [bitmap.bit_resetBits] at h
  exact absurd h (by simp)

theorem bitmap.subset_forEachSetBit (f : Nat → Bool) (bm : bitmap) :
    (bm.forEachSetBit f).subset bm := by
  intro i h
  rw [bitmap.bit_forEachSetBit] at h
  exact (Bool.and_eq_true _ _ ▸ h).1

theorem bitmap.subset_refl (bm : bitmap) : bm.subset bm := fun _ h => h

theorem bitmap.isZero_iff (bm : bitmap) : bm.isZero = true ↔ ∀ i, bm.bit i = false := by
  constructor
  · intro h i
    by_contra hne
    have hb : bm.bit i = true := by
      cases hbit : bm.bit i with
      | false => exact absurd hbit hne
      | true => rfl
    have hmem : true ∈ bm := by
      rw [bitmap.bit] at hb
      by_cases hlt : i < bm.length
      · rw [List.getD_eq_getElem bm false hlt] at hb
        exact hb ▸ List.getElem_mem hlt
      · rw [List.getD_eq_default bm false (Nat.le_of_not_lt hlt)] at hb
        exact absurd hb (by simp)
    simp [bitmap.isZero, List.contains, List.elem_eq_mem, hmem] at h
  · intro h
    simp only [bitmap.isZero, Bool.not_eq_true', List.contains, List.elem_eq_mem,
      decide_eq_false_iff_not]
    intro hmem
    rcases List.getElem_of_mem hmem with ⟨i, hi, hget⟩
    have : bm.bit i = true := by
      rw [bitmap.bit, List.getD_eq_getElem bm false hi, hget]
    rw [h i] at this
    exact absurd this (by simp)

end BitmapLemmas

/-!
## Blocks, columns and column accessors

`columnHeader` carries the per-block, per-column metadata (`valueType`,
`minValue`/`maxValue` as u64 codings, the `valuesDict` for dict columns)
and, in this embedding, also the column's per-row encoded values that the
source reaches through the `blockSearch`.  `blockSearch` exposes
`getConstColumnValue` (empty string when the field has no const column)
and `getColumnHeader` (`nil` when the block has no such column).
-/

/-- The nine column value types of the source. -/
inductive valueType
  | string
  | dict
  | uint8
  | uint16
  | uint32
  | uint64
  | float64
  | ipv4
  | timestampISO8601
deriving DecidableEq

/-- Per-column block header plus the column's encoded per-row values. -/
structure columnHeader where
  name : GoStr
  vType : valueType
  minValue : Nat
  maxValue : Nat
  valuesDict : List GoStr
  encodedValues : List GoStr
deriving DecidableEq

/-- The per-block search state: const columns and regular columns. -/
structure blockSearch where
  constColumns : List (GoStr × GoStr)
  columnHeaders : List columnHeader
deriving DecidableEq

/-- Modelled from the spec: the const-column accessor; yields the empty
string when the block has no const column for the field. -/
def getConstColumnValue (bs : blockSearch) (name : GoStr) : GoStr :=
  match bs.constColumns.find? (fun p => p.1 == name) with
  | some p => p.2
  | none => []

/-- Modelled from the spec: the column-header accessor; `none` when the
block has no column with the given name. -/
def getColumnHeader (bs : blockSearch) (name : GoStr) : Option columnHeader :=
  bs.columnHeaders.find? (fun ch => ch.name == name)

/-- Modelled from the spec: `visitValues` iterates the set bits of the
bitmap, decoding the row's encoded value; bits whose predicate returns
false are cleared. -/
def visitValues (ch : columnHeader) (bm : bitmap) (f : GoStr → Bool) : bitmap :=
  bm.forEachSetBit fun i => f (ch.encodedValues.getD i [])

/-- Modelled from the spec: the dict pre-match pass — keep only rows whose
encoded byte is in the set of surviving dict indexes. -/
def matchEncodedValuesDict (ch : columnHeader) (bm : bitmap) (idxs : List Nat) : bitmap :=
  visitValues ch bm fun v => idxs.contains (v.getD 0 0)

/-- The dict indexes whose entry satisfies the predicate (the byte set the
source accumulates in `bb.B` before `matchEncodedValuesDict`). -/
def dictMatchingIdxs (dict : List GoStr) (pred : GoStr → Bool) : List Nat :=
  (List.range dict.length).filter fun i => pred (dict.getD i [])

/-- Big-endian decoding of an encoded byte slice into an unsigned integer
(`encoding.UnmarshalUint16/32/64`; for one byte it is the byte itself). -/
def unmarshalBE (v : GoStr) : Nat := v.foldl (fun a b => a * 256 + b) 0

/-!
## Numbers: parsing, IEEE-754 decoding, clamping, formatting

Finite float64 values are embedded as exact rationals, represented as a
numerator/denominator pair (`qnum`, denominator stored minus one so it is
always positive); comparisons are by cross multiplication, so everything
evaluates by kernel reduction.  `float64frombits` is the IEEE-754
binary64 decoding of a u64 bit pattern.
-/

/-- An exact rational `num / (dpred + 1)`; not necessarily reduced. -/
structure qnum where
  num : Int
  dpred : Nat
deriving DecidableEq

/-- Denominator of a `qnum` (always positive). -/
def qnum.den (a : qnum) : Nat := a.dpred + 1

/-- Build `num / den` (callers pass a positive `den`). -/
def qnum.make (num : Int) (den : Nat) : qnum := ⟨num, den - 1⟩

/-- The rational value of a natural number. -/
def qnum.ofNat (n : Nat) : qnum := ⟨n, 0⟩

/-- Exact `a ≤ b` by cross multiplication. -/
def qnum.le (a b : qnum) : Bool := decide (a.num * b.den ≤ b.num * a.den)

/-- Exact `a < b` by cross multiplication. -/
def qnum.lt (a b : qnum) : Bool := decide (a.num * b.den < b.num * a.den)

/-- Negation. -/
def qnum.neg (a : qnum) : qnum := ⟨-a.num, a.dpred⟩

/-- `math.Floor` as an exact integer (`fdiv` is floor division). -/
def qnum.floorInt (a : qnum) : Int := a.num.fdiv a.den

/-- `math.Ceil` as an exact integer. -/
def qnum.ceilInt (a : qnum) : Int := -((-a.num).fdiv a.den)

/-- ASCII decimal digit test on a byte. -/
def isDigitByte (c : Nat) : Bool := 48 ≤ c && c ≤ 57

/-- Split a leading run of decimal digits off a byte string. -/
def takeDigits : GoStr → List Nat × GoStr
  | [] => ([], [])
  | c :: cs =>
    if isDigitByte c then
      let (d, r) := takeDigits cs
      (c :: d, r)
    else ([], c :: cs)

/-- Value of a digit run. -/
def digitsToNat (ds : List Nat) : Nat := ds.foldl (fun a c => a * 10 + (c - 48)) 0

/-- Parse `digits[.digits]` into an exact rational. -/
def parseMantissa (s : GoStr) : Option (qnum × GoStr) :=
  let (ip, s2) := takeDigits s
  if ip.isEmpty then none
  else
    match s2 with
    | 46 :: rest =>
      let (fp, s3) := takeDigits rest
      if fp.isEmpty then none
      else
        some (qnum.make (digitsToNat ip * 10 ^ fp.length + digitsToNat fp) (10 ^ fp.length), s3)
    | _ => some (qnum.ofNat (digitsToNat ip), s2)

/-- Parse an optional `e`/`E` exponent part. -/
def parseExpPart (s : GoStr) : Option (Int × GoStr) :=
  match s with
  | 101 :: rest | 69 :: rest =>
    let (eneg, r1) : Bool × GoStr :=
      match rest with
      | 45 :: r => (true, r)
      | 43 :: r => (false, r)
      | _ => (false, rest)
    let (ed, r2) := takeDigits r1
    if ed.isEmpty then none
    else some (if eneg then -(digitsToNat ed : Int) else (digitsToNat ed : Int), r2)
  | _ => some (0, s)

/-- Modelled from the spec: `tryParseFloat64` — tolerant parse of a
decimal number with optional leading sign, fraction and exponent;
malformed input (including the empty string) yields `none`.  The SI/IEC
size-suffix forms of the source are not modelled. -/
def tryParseFloat64 (s : GoStr) : Option qnum :=
  let (neg, s1) : Bool × GoStr :=
    match s with
    | 45 :: rest => (true, rest)
    | 43 :: rest => (false, rest)
    | _ => (false, s)
  match parseMantissa s1 with
  | none => none
  | some (m, s2) =>
    match parseExpPart s2 with
    | none => none
    | some (e, s3) =>
      if s3.isEmpty then
        let m1 := if neg then m.neg else m
        let m2 :=
          if e < 0 then qnum.make m1.num (m1.den * 10 ^ (-e).toNat)
          else qnum.make (m1.num * 10 ^ e.toNat) m1.den
        some m2
      else none

/-- Modelled from the spec: strict decimal parse of an unsigned integer. -/
def tryParseUint64 (s : GoStr) : Option Nat :=
  if s.isEmpty || !s.all isDigitByte then none else some (digitsToNat s)

/-- A decoded float64: NaN, an infinity, or a finite (exact) rational. -/
inductive f64val
  | nan
  | posInf
  | negInf
  | fin (q : qnum)
deriving DecidableEq

/-- IEEE-754 binary64 decoding of a 64-bit pattern (`math.Float64frombits`). -/
def float64frombits (n : Nat) : f64val :=
  let s : Nat := n / 2 ^ 63 % 2
  let e : Nat := n / 2 ^ 52 % 2 ^ 11
  let m : Nat := n % 2 ^ 52
  if e = 2047 then
    if m = 0 then (if s = 1 then .negInf else .posInf) else .nan
  else
    let mag : qnum :=
      if e = 0 then qnum.make m (2 ^ 1074)
      else qnum.make ((2 ^ 52 + m) * 2 ^ e) (2 ^ 1075)
    .fin (if s = 1 then mag.neg else mag)

/-- Go `q > v` for a finite float `q` against a decoded float64 `v`
(`NaN` compares false). -/
def qGtF (q : qnum) (v : f64val) : Bool :=
  match v with
  | .nan => false
  | .posInf => false
  | .negInf => true
  | .fin x => x.lt q

/-- Go `q < v` for a finite float `q` against a decoded float64 `v`. -/
def qLtF (q : qnum) (v : f64val) : Bool :=
  match v with
  | .nan => false
  | .posInf => true
  | .negInf => false
  | .fin x => q.lt x

/-- Go `v >= q` for a decoded float64 `v` against a finite float `q`. -/
def fGeQ (v : f64val) (q : qnum) : Bool :=
  match v with
  | .nan => false
  | .posInf => true
  | .negInf => false
  | .fin x => q.le x

/-- Go `v <= q` for a decoded float64 `v` against a finite float `q`. -/
def fLeQ (v : f64val) (q : qnum) : Bool :=
  match v with
  | .nan => false
  | .posInf => false
  | .negInf => true
  | .fin x => x.le q

/-- `toUint64Clamp`: clamp a value that has already been ceiled/floored
(hence is an exact integer) into `[0, 2^64-1]`. -/
def toUint64Clamp (f : Int) : Nat :=
  if f < 0 then 0
  else if f > 18446744073709551615 then 18446744073709551615
  else f.toNat

/-- `toUint64Range`: integer clamp of a numeric interval —
`(clamp(ceil(min)), clamp(floor(max)))`. -/
def toUint64Range (minValue maxValue : qnum) : Nat × Nat :=
  (toUint64Clamp minValue.ceilInt, toUint64Clamp maxValue.floorInt)

/-- Decimal byte string of a natural number. -/
def natDecBytes (n : Nat) : GoStr := (Nat.toDigits 10 n).map Char.toNat

/-- Left-pad a decimal rendering with zeros to width `w`. -/
def padDec (w n : Nat) : GoStr :=
  let d := natDecBytes n
  List.replicate (w - d.length) 48 ++ d

/-- Modelled from the spec: canonical string form of a decoded uint8
value — its decimal representation. -/
def toUint8String (v : GoStr) : GoStr := natDecBytes (unmarshalBE v)

/-- Modelled from the spec: canonical string form of a decoded uint16 value. -/
def toUint16String (v : GoStr) : GoStr := natDecBytes (unmarshalBE v)

/-- Modelled from the spec: canonical string form of a decoded uint32 value. -/
def toUint32String (v : GoStr) : GoStr := natDecBytes (unmarshalBE v)

/-- Modelled from the spec: canonical string form of a decoded uint64 value. -/
def toUint64String (v : GoStr) : GoStr := natDecBytes (unmarshalBE v)

/-- Modelled from the spec: canonical (dotted-quad) string form of an
ipv4 value stored as its 4 big-endian bytes. -/
def toIPv4String (v : GoStr) : GoStr :=
  natDecBytes (v.getD 0 0) ++ [46] ++ natDecBytes (v.getD 1 0) ++ [46] ++
    natDecBytes (v.getD 2 0) ++ [46] ++ natDecBytes (v.getD 3 0)

/-- Gregorian date from a day count since 1970-01-01 (era decomposition). -/
def civilFromDays (z0 : Nat) : Nat × Nat × Nat :=
  let z := z0 + 719468
  let era := z / 146097
  let doe := z % 146097
  let yoe := (doe - doe / 1460 + doe / 36524 - doe / 146096) / 365
  let y := yoe + era * 400
  let doy := doe - (365 * yoe + yoe / 4 - yoe / 100)
  let mp := (5 * doy + 2) / 153
  let d := doy - (153 * mp + 2) / 5 + 1
  let m := if mp < 10 then mp + 3 else mp - 9
  (if m ≤ 2 then y + 1 else y, m, d)

/-- Modelled from the spec: RFC3339 rendering (nanosecond precision,
UTC `Z`) of a nanosecond count since the epoch. -/
def nanosToISO8601 (n : Nat) : GoStr :=
  let secs := n / 1000000000
  let nanos := n % 1000000000
  let days := secs / 86400
  let sod := secs % 86400
  let ymd := civilFromDays days
  padDec 4 ymd.1 ++ [45] ++ padDec 2 ymd.2.1 ++ [45] ++ padDec 2 ymd.2.2 ++ [84] ++
    padDec 2 (sod / 3600) ++ [58] ++ padDec 2 (sod % 3600 / 60) ++ [58] ++
    padDec 2 (sod % 60) ++ [46] ++ padDec 9 nanos ++ [90]

/-- Modelled from the spec: canonical string form of an iso8601 timestamp
value, from the stored big-endian nanosecond count. -/
def toTimestampISO8601String (v : GoStr) : GoStr := nanosToISO8601 (unmarshalBE v)

/-- Exact decimal rendering of a rational whose denominator is a power of
two (every finite float64), used for the canonical float string form. -/
def ratDecBytes (q : qnum) : GoStr :=
  let sign : GoStr := if q.num < 0 then [45] else []
  let num := q.num.natAbs
  let den := q.den
  let ipart := num / den
  let rem := num % den
  if rem = 0 then sign ++ natDecBytes ipart
  else
    let k := Nat.log2 den
    if den = 2 ^ k then sign ++ natDecBytes ipart ++ [46] ++ padDec k (rem * 5 ^ k)
    else sign ++ natDecBytes num ++ [47] ++ natDecBytes den

/-- Modelled from the spec: canonical string form of a float64 value. -/
def toFloat64String (v : GoStr) : GoStr :=
  match float64frombits (unmarshalBE v) with
  | .nan => gostr "NaN"
  | .posInf => gostr "+Inf"
  | .negInf => gostr "-Inf"
  | .fin q => ratDecBytes q

/-!
## Phrase matching and case folding
-/

/-- Word-token byte: ASCII letter, digit or `_`. -/
def isTokenRune (c : Nat) : Bool :=
  (48 ≤ c && c ≤ 57) || (65 ≤ c && c ≤ 90) || (97 ≤ c && c ≤ 122) || c == 95

/-- Modelled from the spec: `matchPhrase` — case-sensitive occurrence of
the phrase inside the value at word-token boundaries; the empty phrase
matches only the empty value. -/
def matchPhrase (s phrase : GoStr) : Bool :=
  if phrase.isEmpty then s.isEmpty
  else
    (List.range (s.length + 1)).any fun i =>
      ((s.drop i).take phrase.length == phrase) &&
      (i == 0 || !isTokenRune (s.getD (i - 1) 0)) &&
      (i + phrase.length == s.length || !isTokenRune (s.getD (i + phrase.length) 0))

/-- ASCII lower-casing of one byte. -/
def toLowerByte (c : Nat) : Nat := if 65 ≤ c && c ≤ 90 then c + 32 else c

/-- Modelled from the spec: ASCII-lowercased form of a byte string
(`strings.ToLower` / `stringsutil.AppendLowercase` restricted to ASCII). -/
def toLowerBytes (s : GoStr) : GoStr := s.map toLowerByte

/-- ASCII upper-casing of one byte. -/
def toUpperByte (c : Nat) : Nat := if 97 ≤ c && c ≤ 122 then c - 32 else c

/-- Modelled from the spec: ASCII-uppercased form of a byte string. -/
def toUpperBytes (s : GoStr) : GoStr := s.map toUpperByte

/-- `isASCIILowercase`: no byte is ≥ 0x80 or an ASCII capital. -/
def isASCIILowercase (s : GoStr) : Bool :=
  s.all fun c => !(c ≥ 128 || (65 ≤ c && c ≤ 90))

/-- `matchAnyCasePhrase`: empty phrase matches only the empty string; a
longer phrase cannot match; otherwise lowercase the value (fast path when
it already is lowercase) and match the phrase. -/
def matchAnyCasePhrase (s phraseLowercase : GoStr) : Bool :=
  if phraseLowercase.length == 0 then s.length == 0
  else if phraseLowercase.length > s.length then false
  else if isASCIILowercase s then matchPhrase s phraseLowercase
  else matchPhrase (toLowerBytes s) phraseLowercase

/-!
## `filterRange` (src `filterRange.apply` and its match routines)
-/

/-- `matchRange`: parse the string as a float; non-numbers never match. -/
def matchRange (s : GoStr) (minValue maxValue : qnum) : Bool :=
  match tryParseFloat64 s with
  | none => false
  | some f => minValue.le f && f.le maxValue

/-- The numeric range filter `fieldName:range(minValue, maxValue)`. -/
structure filterRange where
  fieldName : GoStr
  minValue : qnum
  maxValue : qnum

/-- `matchStringByRange`: typed scan of a string column. -/
def matchStringByRange (ch : columnHeader) (bm : bitmap) (minValue maxValue : qnum) : bitmap :=
  visitValues ch bm fun v => matchRange v minValue maxValue

/-- `matchValuesDictByRange`: dict pre-match then encoded pass. -/
def matchValuesDictByRange (ch : columnHeader) (bm : bitmap) (minValue maxValue : qnum) : bitmap :=
  matchEncodedValuesDict ch bm
    (dictMatchingIdxs ch.valuesDict fun v => matchRange v minValue maxValue)

/-- `matchUint8ByRange`: header-bounds skip, then typed scan comparing the
decoded byte against the clamped interval.  The source's fatal
wrong-length assertion is embedded as a non-match; the well-formedness
hypotheses of the theorems rule it out. -/
def matchUint8ByRange (ch : columnHeader) (bm : bitmap) (minValue maxValue : qnum) : bitmap :=
  let r := toUint64Range minValue maxValue
  if maxValue.lt (qnum.ofNat 0) || decide (r.1 > ch.maxValue) || decide (r.2 < ch.minValue) then
    bm.resetBits
  else
    visitValues ch bm fun v =>
      v.length == 1 && (decide (r.1 ≤ unmarshalBE v) && decide (unmarshalBE v ≤ r.2))

/-- `matchUint16ByRange`: as `matchUint8ByRange` with 2-byte values. -/
def matchUint16ByRange (ch : columnHeader) (bm : bitmap) (minValue maxValue : qnum) : bitmap :=
  let r := toUint64Range minValue maxValue
  if maxValue.lt (qnum.ofNat 0) || decide (r.1 > ch.maxValue) || decide (r.2 < ch.minValue) then
    bm.resetBits
  else
    visitValues ch bm fun v =>
      v.length == 2 && (decide (r.1 ≤ unmarshalBE v) && decide (unmarshalBE v ≤ r.2))

/-- `matchUint32ByRange`: as `matchUint8ByRange` with 4-byte values. -/
def matchUint32ByRange (ch : columnHeader) (bm : bitmap) (minValue maxValue : qnum) : bitmap :=
  let r := toUint64Range minValue maxValue
  if maxValue.lt (qnum.ofNat 0) || decide (r.1 > ch.maxValue) || decide (r.2 < ch.minValue) then
    bm.resetBits
  else
    visitValues ch bm fun v =>
      v.length == 4 && (decide (r.1 ≤ unmarshalBE v) && decide (unmarshalBE v ≤ r.2))

/-- `matchUint64ByRange`: as `matchUint8ByRange` with 8-byte values. -/
def matchUint64ByRange (ch : columnHeader) (bm : bitmap) (minValue maxValue : qnum) : bitmap :=
  let r := toUint64Range minValue maxValue
  if maxValue.lt (qnum.ofNat 0) || decide (r.1 > ch.maxValue) || decide (r.2 < ch.minValue) then
    bm.resetBits
  else
    visitValues ch bm fun v =>
      v.length == 8 && (decide (r.1 ≤ unmarshalBE v) && decide (unmarshalBE v ≤ r.2))

/-- `matchFloat64ByRange`: header-bounds skip on the decoded float bounds,
then typed scan with `minValue <= f <= maxValue` on the decoded value. -/
def matchFloat64ByRange (ch : columnHeader) (bm : bitmap) (minValue maxValue : qnum) : bitmap :=
  if qGtF minValue (float64frombits ch.maxValue) ||
      qLtF maxValue (float64frombits ch.minValue) then
    bm.resetBits
  else
    visitValues ch bm fun v =>
      v.length == 8 &&
        (fGeQ (float64frombits (unmarshalBE v)) minValue &&
          fLeQ (float64frombits (unmarshalBE v)) maxValue)

/-- `filterRange.apply`: reversed interval clears everything; then the
const-column, absent-column and per-value-type paths.  ipv4 and iso8601
columns never match a numeric range. -/
def filterRange.apply (fr : filterRange) (bs : blockSearch) (bm : bitmap) : bitmap :=
  if fr.maxValue.lt fr.minValue then bm.resetBits
  else
    let v := getConstColumnValue bs fr.fieldName
    if v ≠ [] then
      if matchRange v fr.minValue fr.maxValue then bm else bm.resetBits
    else
      match getColumnHeader bs fr.fieldName with
      | none => bm.resetBits
      | some ch =>
        match ch.vType with
        | .string => matchStringByRange ch bm fr.minValue fr.maxValue
        | .dict => matchValuesDictByRange ch bm fr.minValue fr.maxValue
        | .uint8 => matchUint8ByRange ch bm fr.minValue fr.maxValue
        | .uint16 => matchUint16ByRange ch bm fr.minValue fr.maxValue
        | .uint32 => matchUint32ByRange ch bm fr.minValue fr.maxValue
        | .uint64 => matchUint64ByRange ch bm fr.minValue fr.maxValue
        | .float64 => matchFloat64ByRange ch bm fr.minValue fr.maxValue
        | .ipv4 => bm.resetBits
        | .timestampISO8601 => bm.resetBits

/-!
## `filterStringRange` (src `filterStringRange.apply` and match routines)
-/

/-- `matchStringRange`: `s >= minValue && s < maxValue` byte-wise. -/
def matchStringRange (s minValue maxValue : GoStr) : Bool :=
  goLe minValue s && goLt s maxValue

/-- The string range filter `fieldName:string_range(minValue, maxValue)`. -/
structure filterStringRange where
  fieldName : GoStr
  minValue : GoStr
  maxValue : GoStr

/-- `matchStringByStringRange`: typed scan of a string column. -/
def matchStringByStringRange (ch : columnHeader) (bm : bitmap) (minValue maxValue : GoStr) :
    bitmap :=
  visitValues ch bm fun v => matchStringRange v minValue maxValue

/-- `matchValuesDictByStringRange`: dict pre-match then encoded pass. -/
def matchValuesDictByStringRange (ch : columnHeader) (bm : bitmap) (minValue maxValue : GoStr) :
    bitmap :=
  matchEncodedValuesDict ch bm
    (dictMatchingIdxs ch.valuesDict fun v => matchStringRange v minValue maxValue)

/-- `matchUint8ByStringRange`: fast skip when `minValue > "9"` or
`maxValue < "0"`, else per-row canonical-string comparison. -/
def matchUint8ByStringRange (ch : columnHeader) (bm : bitmap) (minValue maxValue : GoStr) :
    bitmap :=
  if goLt (gostr "9") minValue || goLt maxValue (gostr "0") then bm.resetBits
  else visitValues ch bm fun v => matchStringRange (toUint8String v) minValue maxValue

/-- `matchUint16ByStringRange`. -/
def matchUint16ByStringRange (ch : columnHeader) (bm : bitmap) (minValue maxValue : GoStr) :
    bitmap :=
  if goLt (gostr "9") minValue || goLt maxValue (gostr "0") then bm.resetBits
  else visitValues ch bm fun v => matchStringRange (toUint16String v) minValue maxValue

/-- `matchUint32ByStringRange`. -/
def matchUint32ByStringRange (ch : columnHeader) (bm : bitmap) (minValue maxValue : GoStr) :
    bitmap :=
  if goLt (gostr "9") minValue || goLt maxValue (gostr "0") then bm.resetBits
  else visitValues ch bm fun v => matchStringRange (toUint32String v) minValue maxValue

/-- `matchUint64ByStringRange`. -/
def matchUint64ByStringRange (ch : columnHeader) (bm : bitmap) (minValue maxValue : GoStr) :
    bitmap :=
  if goLt (gostr "9") minValue || goLt maxValue (gostr "0") then bm.resetBits
  else visitValues ch bm fun v => matchStringRange (toUint64String v) minValue maxValue

/-- `matchFloat64ByStringRange`: fast skip when `minValue > "9"` or
`maxValue < "+"`, else per-row canonical-string comparison. -/
def matchFloat64ByStringRange (ch : columnHeader) (bm : bitmap) (minValue maxValue : GoStr) :
    bitmap :=
  if goLt (gostr "9") minValue || goLt maxValue (gostr "+") then bm.resetBits
  else visitValues ch bm fun v => matchStringRange (toFloat64String v) minValue maxValue

/-- `matchIPv4ByStringRange`: fast skip when `minValue > "9"` or
`maxValue < "0"`, else per-row dotted-quad comparison. -/
def matchIPv4ByStringRange (ch : columnHeader) (bm : bitmap) (minValue maxValue : GoStr) :
    bitmap :=
  if goLt (gostr "9") minValue || goLt maxValue (gostr "0") then bm.resetBits
  else visitValues ch bm fun v => matchStringRange (toIPv4String v) minValue maxValue

/-- `matchTimestampISO8601ByStringRange`: fast skip when `minValue > "9"`
or `maxValue < "0"`, else per-row RFC3339 comparison. -/
def matchTimestampISO8601ByStringRange (ch : columnHeader) (bm : bitmap)
    (minValue maxValue : GoStr) : bitmap :=
  if goLt (gostr "9") minValue || goLt maxValue (gostr "0") then bm.resetBits
  else visitValues ch bm fun v => matchStringRange (toTimestampISO8601String v) minValue maxValue

/-- `filterStringRange.apply`: reversed interval clears everything; the
absent-column path matches iff the empty string is inside the range. -/
def filterStringRange.apply (fr : filterStringRange) (bs : blockSearch) (bm : bitmap) : bitmap :=
  if goLt fr.maxValue fr.minValue then bm.resetBits
  else
    let v := getConstColumnValue bs fr.fieldName
    if v ≠ [] then
      if matchStringRange v fr.minValue fr.maxValue then bm else bm.resetBits
    else
      match getColumnHeader bs fr.fieldName with
      | none =>
        if matchStringRange [] fr.minValue fr.maxValue then bm else bm.resetBits
      | some ch =>
        match ch.vType with
        | .string => matchStringByStringRange ch bm fr.minValue fr.maxValue
        | .dict => matchValuesDictByStringRange ch bm fr.minValue fr.maxValue
        | .uint8 => matchUint8ByStringRange ch bm fr.minValue fr.maxValue
        | .uint16 => matchUint16ByStringRange ch bm fr.minValue fr.maxValue
        | .uint32 => matchUint32ByStringRange ch bm fr.minValue fr.maxValue
        | .uint64 => matchUint64ByStringRange ch bm fr.minValue fr.maxValue
        | .float64 => matchFloat64ByStringRange ch bm fr.minValue fr.maxValue
        | .ipv4 => matchIPv4ByStringRange ch bm fr.minValue fr.maxValue
        | .timestampISO8601 =>
          matchTimestampISO8601ByStringRange ch bm fr.minValue fr.maxValue

/-!
## `filterAnyCasePhrase` (src `filterAnyCasePhrase.apply` and helpers)

The uintN / float64 / ipv4 / iso8601 match routines it dispatches to live
outside the provided sources and are modelled from the spec: they match
the phrase against the canonical string form of the typed value (for
uintN via an exact decoded-integer comparison with a header-bounds skip).
-/

/-- The case-insensitive phrase filter `fieldName:i(phrase)`. -/
structure filterAnyCasePhrase where
  fieldName : GoStr
  phrase : GoStr

/-- `matchStringByAnyCasePhrase`: typed scan of a string column. -/
def matchStringByAnyCasePhrase (ch : columnHeader) (bm : bitmap) (phraseLowercase : GoStr) :
    bitmap :=
  visitValues ch bm fun v => matchAnyCasePhrase v phraseLowercase

/-- `matchValuesDictByAnyCasePhrase`: dict pre-match then encoded pass. -/
def matchValuesDictByAnyCasePhrase (ch : columnHeader) (bm : bitmap) (phraseLowercase : GoStr) :
    bitmap :=
  matchEncodedValuesDict ch bm
    (dictMatchingIdxs ch.valuesDict fun v => matchAnyCasePhrase v phraseLowercase)

/-- Modelled from the spec: exact match of a phrase on a uintN column —
clear everything when the phrase is not a decimal number within the
column's header bounds, else keep the rows storing exactly that number. -/
def matchUintByExactValue (width : Nat) (ch : columnHeader) (bm : bitmap) (phrase : GoStr) :
    bitmap :=
  match tryParseUint64 phrase with
  | none => bm.resetBits
  | some n =>
    if decide (n < ch.minValue) || decide (n > ch.maxValue) then bm.resetBits
    else visitValues ch bm fun v => v.length == width && unmarshalBE v == n

/-- Modelled from the spec: phrase match against the canonical string
form of a float64 value. -/
def matchFloat64ByPhrase (ch : columnHeader) (bm : bitmap) (phrase : GoStr) : bitmap :=
  visitValues ch bm fun v => matchPhrase (toFloat64String v) phrase

/-- Modelled from the spec: phrase match against the dotted-quad form of
an ipv4 value. -/
def matchIPv4ByPhrase (ch : columnHeader) (bm : bitmap) (phrase : GoStr) : bitmap :=
  visitValues ch bm fun v => matchPhrase (toIPv4String v) phrase

/-- Modelled from the spec: phrase match against the RFC3339 form of an
iso8601 value. -/
def matchTimestampISO8601ByPhrase (ch : columnHeader) (bm : bitmap) (phrase : GoStr) : bitmap :=
  visitValues ch bm fun v => matchPhrase (toTimestampISO8601String v) phrase

/-- `filterAnyCasePhrase.apply`: const-column and absent-column paths
(the absent column matches anything only for the empty phrase), then
per-value-type dispatch with the ASCII-lowercased phrase (uppercased for
iso8601 columns). -/
def filterAnyCasePhrase.apply (fp : filterAnyCasePhrase) (bs : blockSearch) (bm : bitmap) :
    bitmap :=
  let phraseLowercase := toLowerBytes fp.phrase
  let v := getConstColumnValue bs fp.fieldName
  if v ≠ [] then
    if matchAnyCasePhrase v phraseLowercase then bm else bm.resetBits
  else
    match getColumnHeader bs fp.fieldName with
    | none => if phraseLowercase.length > 0 then bm.resetBits else bm
    | some ch =>
      match ch.vType with
      | .string => matchStringByAnyCasePhrase ch bm phraseLowercase
      | .dict => matchValuesDictByAnyCasePhrase ch bm phraseLowercase
      | .uint8 => matchUintByExactValue 1 ch bm phraseLowercase
      | .uint16 => matchUintByExactValue 2 ch bm phraseLowercase
      | .uint32 => matchUintByExactValue 4 ch bm phraseLowercase
      | .uint64 => matchUintByExactValue 8 ch bm phraseLowercase
      | .float64 => matchFloat64ByPhrase ch bm phraseLowercase
      | .ipv4 => matchIPv4ByPhrase ch bm phraseLowercase
      | .timestampISO8601 => matchTimestampISO8601ByPhrase ch bm (toUpperBytes fp.phrase)

theorem bitmap.ext_bit (a b : bitmap) (hlen : a.length = b.length)
    (h : ∀ i, a.bit i = b.bit i) : a = b := by
  induction a generalizing b with
  | nil => cases b with
    | nil => rfl
    | cons y ys => simp at hlen
  | cons x xs ih =>
    cases b with
    | nil => simp at hlen
    | cons y ys =>
      have h0 := h 0
      simp [bitmap.bit] at h0
      subst h0
      have := ih ys (by simpa using hlen) (fun i => by
        have := h (i + 1)
        simpa [bitmap.bit] using this)
      rw [this]

theorem bitmap.bit_or_imp (a b : bitmap) (i : Nat) (h : (a.or b).bit i = true) :
    a.bit i = true ∨ b.bit i = true := by
  induction a generalizing b i with
  | nil => cases b <;> simp [bitmap.or, bitmap.bit] at h
  | cons x xs ih =>
    cases b with
    | nil => simp [bitmap.or, bitmap.bit] at h
    | cons y ys =>
      cases i with
      | zero =>
        simp [bitmap.or, bitmap.bit] at h ⊢
        exact h
      | succ n =>
        simp only [bitmap.or, bitmap.bit, List.getD_cons_succ] at h ⊢
        exact ih ys n h

theorem bitmap.bit_andNot_imp (a b : bitmap) (i : Nat) (h : (a.andNot b).bit i = true) :
    a.bit i = true := by
  induction a generalizing b i with
  | nil => cases b <;> simp [bitmap.andNot, bitmap.bit] at h
  | cons x xs ih =>
    cases b with
    | nil => simp [bitmap.andNot, bitmap.bit] at h
    | cons y ys =>
      cases i with
      | zero =>
        simp [bitmap.andNot, bitmap.bit] at h ⊢
        exact h.1
      | succ n =>
        simp only [bitmap.andNot, bitmap.bit, List.getD_cons_succ] at h ⊢
        exact ih ys n h

theorem visitValues_subset (ch : columnHeader) (bm : bitmap) (f : GoStr → Bool) :
    (visitValues ch bm f).subset bm :=
  bitmap.subset_forEachSetBit _ bm

theorem filterRange_apply_subset (fr : filterRange) (bs : blockSearch) (bm : bitmap) :
    (fr.apply bs bm).subset bm := by
  unfold filterRange.apply matchStringByRange matchValuesDictByRange matchUint8ByRange
    matchUint16ByRange matchUint32ByRange matchUint64ByRange matchFloat64ByRange
    matchEncodedValuesDict
  simp only []
  repeat' split
  all_goals
    first
      | exact bitmap.subset_refl bm
      | exact bitmap.subset_resetBits bm bm
      | exact visitValues_subset _ _ _

theorem filterStringRange_apply_subset (fr : filterStringRange) (bs : blockSearch)
    (bm : bitmap) : (fr.apply bs bm).subset bm := by
  unfold filterStringRange.apply matchStringByStringRange matchValuesDictByStringRange
    matchUint8ByStringRange matchUint16ByStringRange matchUint32ByStringRange
    matchUint64ByStringRange matchFloat64ByStringRange matchIPv4ByStringRange
    matchTimestampISO8601ByStringRange matchEncodedValuesDict
  simp only []
  repeat' split
  all_goals
    first
      | exact bitmap.subset_refl bm
      | exact bitmap.subset_resetBits bm bm
      | exact visitValues_subset _ _ _

theorem filterAnyCasePhrase_apply_subset (fp : filterAnyCasePhrase) (bs : blockSearch)
    (bm : bitmap) : (fp.apply bs bm).subset bm := by
  unfold filterAnyCasePhrase.apply matchStringByAnyCasePhrase matchValuesDictByAnyCasePhrase
    matchUintByExactValue matchFloat64ByPhrase matchIPv4ByPhrase
    matchTimestampISO8601ByPhrase matchEncodedValuesDict
  simp only []
  repeat' split
  all_goals
    first
      | exact bitmap.subset_refl bm
      | exact bitmap.subset_resetBits bm bm
      | exact visitValues_subset _ _ _

theorem filterNotApply_subset (f : bitmap → bitmap) (bm : bitmap) :
    (filterNotApply f bm).subset bm := by
  intro i h
  exact bitmap.bit_andNot_imp bm (f bm) i h

theorem filterOrLoop_subset (bm : bitmap) (fs : List (bitmap → bitmap)) (acc : bitmap)
    (hacc : acc.subset bm) (hfs : ∀ f ∈ fs, ∀ bm', (f bm').subset bm') :
    (filterOrLoop bm fs acc).subset bm := by
  induction fs generalizing acc with
  | nil => exact hacc
  | cons f rest ih =>
    unfold filterOrLoop
    simp only []
    split
    · exact hacc
    · refine ih _ ?_ (fun g hg => hfs g (List.mem_cons_of_mem f hg))
      intro i h
      rcases bitmap.bit_or_imp acc _ i h with h1 | h1
      · exact hacc i h1
      · exact bitmap.bit_andNot_imp bm acc i
          (hfs f (List.mem_cons_self f rest) (bm.andNot acc) i h1)

theorem filterOrApply_subset (fs : List (bitmap → bitmap)) (bm : bitmap)
    (hfs : ∀ f ∈ fs, ∀ bm', (f bm').subset bm') : (filterOrApply fs bm).subset bm :=
  filterOrLoop_subset bm fs _ (fun i h => by rw [bitmap.bit_zeroBitmap] at h; cases h) hfs

theorem bitmap.andNot_andNot_and (bm p : bitmap) :
    bm.andNot (bm.andNot (bm.and p)) = bm.and p := by
  induction bm generalizing p with
  | nil => cases p <;> rfl
  | cons b bs ih =>
    cases p with
    | nil => rfl
    | cons q qs =>
      simp only [bitmap.and, bitmap.andNot, ih]
      congr 1
      cases b <;> cases q <;> rfl

theorem bitmap.length_foldl_or (ps : List bitmap) (u : bitmap)
    (h : ∀ p ∈ ps, p.length = u.length) : (ps.foldl bitmap.or u).length = u.length := by
  induction ps generalizing u with
  | nil => rfl
  | cons p rest ih =>
    have hp : p.length = u.length := h p (List.mem_cons_self p rest)
    have hlen : (u.or p).length = u.length := by
      rw [bitmap.length_or, hp, Nat.min_self]
    rw [List.foldl_cons, ih (u.or p) (fun q hq => by rw [hlen]; exact h q (List.mem_cons_of_mem p hq)), hlen]

theorem bitmap.bit_foldl_or (ps : List bitmap) (u : bitmap) (i : Nat)
    (h : ∀ p ∈ ps, p.length = u.length) :
    (ps.foldl bitmap.or u).bit i = (u.bit i || ps.any fun p => p.bit i) := by
  induction ps generalizing u with
  | nil => simp
  | cons p rest ih =>
    have hp : p.length = u.length := h p (List.mem_cons_self p rest)
    have hlen : (u.or p).length = u.length := by
      rw [bitmap.length_or, hp, Nat.min_self]
    rw [List.foldl_cons, ih (u.or p) (fun q hq => by rw [hlen]; exact h q (List.mem_cons_of_mem p hq))]
    rw [bitmap.bit_or u p i hp.symm]
    simp [Bool.or_assoc]

theorem filterOrLoop_inter (bm : bitmap) (fs : List (bitmap → bitmap)) (ps : List bitmap)
    (u : bitmap) (hact : List.Forall₂ (fun f p => ∀ bm', f bm' = bm'.and p) fs ps)
    (hlen : ∀ p ∈ ps, p.length = bm.length) (hu : u.length = bm.length) :
    filterOrLoop bm fs (bm.and u) = bm.and (ps.foldl bitmap.or u) := by
  induction hact generalizing u with
  | nil => rfl
  | @cons f p fs' ps' hfp htail ih =>
    have hp : p.length = bm.length := hlen p (List.mem_cons_self p ps')
    have hlen' : ∀ q ∈ ps', q.length = bm.length :=
      fun q hq => hlen q (List.mem_cons_of_mem p hq)
    have hup : (u.or p).length = bm.length := by
      rw [bitmap.length_or, hu, hp, Nat.min_self]
    have hand_len : (bm.and u).length = bm.length := by
      rw [bitmap.length_and, hu, Nat.min_self]
    unfold filterOrLoop
    simp only []
    split
    · -- early break: bm is already covered by the accumulated result
      rename_i hz
      rw [List.foldl_cons]
      rw [bitmap.isZero_iff] at hz
      have hcov : ∀ i, bm.bit i = true → u.bit i = true := by
        intro i hbi
        have := hz i
        rw [bitmap.bit_andNot bm (bm.and u) i hand_len.symm,
          bitmap.bit_and bm u i hu.symm, hbi] at this
        simpa using this
      apply bitmap.ext_bit
      · rw [bitmap.length_and, hu, Nat.min_self, bitmap.length_and,
          bitmap.length_foldl_or ps' (u.or p) (fun q hq => by rw [hup]; exact hlen' q hq),
          hup, Nat.min_self]
      · intro i
        rw [bitmap.bit_and bm u i hu.symm,
          bitmap.bit_and bm _ i (by
            rw [bitmap.length_foldl_or ps' (u.or p) (fun q hq => by rw [hup]; exact hlen' q hq),
              hup])]
        cases hbi : bm.bit i with
        | false => rfl
        | true =>
          rw [hcov i hbi]
          rw [bitmap.bit_foldl_or ps' (u.or p) i (fun q hq => by rw [hup]; exact hlen' q hq),
            bitmap.bit_or u p i (by rw [hu, hp]), hcov i hbi]
          rfl
    · -- continue: the new accumulator is bm ∩ (u ∪ p)
      rw [hfp (bm.andNot (bm.and u))]
      have hstep : (bm.and u).or ((bm.andNot (bm.and u)).and p) = bm.and (u.or p) := by
        apply bitmap.ext_bit
        · rw [bitmap.length_or, bitmap.length_and, hu, Nat.min_self,
            bitmap.length_and, bitmap.length_andNot, bitmap.length_and, hu, Nat.min_self,
            Nat.min_self, hp, Nat.min_self, bitmap.length_and, hup, Nat.min_self]
        · intro i
          have h1 : (bm.andNot (bm.and u)).length = bm.length := by
            rw [bitmap.length_andNot, bitmap.length_and, hu, Nat.min_self, Nat.min_self]
          rw [bitmap.bit_or _ _ i (by
              rw [bitmap.length_and, hu, Nat.min_self, bitmap.length_and, h1, hp, Nat.min_self]),
            bitmap.bit_and bm u i hu.symm,
            bitmap.bit_and _ p i (by rw [h1, hp]),
            bitmap.bit_andNot bm _ i hand_len.symm,
            bitmap.bit_and bm u i hu.symm,
            bitmap.bit_and bm _ i (by rw [hup]),
            bitmap.bit_or u p i (by rw [hu, hp])]
          cases bm.bit i <;> cases u.bit i <;> cases p.bit i <;> rfl
      rw [hstep, List.foldl_cons]
      exact ih (u.or p) hlen' hup

theorem filterOrNaive_inter (bm : bitmap) (fs : List (bitmap → bitmap)) (ps : List bitmap)
    (u : bitmap) (hact : List.Forall₂ (fun f p => ∀ bm', f bm' = bm'.and p) fs ps)
    (hlen : ∀ p ∈ ps, p.length = bm.length) (hu : u.length = bm.length) :
    fs.foldl (fun acc f => acc.or (f bm)) (bm.and u) = bm.and (ps.foldl bitmap.or u) := by
  induction hact generalizing u with
  | nil => rfl
  | @cons f p fs' ps' hfp htail ih =>
    have hp : p.length = bm.length := hlen p (List.mem_cons_self p ps')
    have hlen' : ∀ q ∈ ps', q.length = bm.length :=
      fun q hq => hlen q (List.mem_cons_of_mem p hq)
    have hup : (u.or p).length = bm.length := by
      rw [bitmap.length_or, hu, hp, Nat.min_self]
    rw [List.foldl_cons, List.foldl_cons, hfp bm]
    have hstep : (bm.and u).or (bm.and p) = bm.and (u.or p) := by
      apply bitmap.ext_bit
      · rw [bitmap.length_or, bitmap.length_and, hu, Nat.min_self,
          bitmap.length_and, hp, Nat.min_self, Nat.min_self, bitmap.length_and, hup, Nat.min_self]
      · intro i
        rw [bitmap.bit_or _ _ i (by
            rw [bitmap.length_and, hu, Nat.min_self, bitmap.length_and, hp, Nat.min_self]),
          bitmap.bit_and bm u i hu.symm, bitmap.bit_and bm p i hp.symm,
          bitmap.bit_and bm _ i (by rw [hup]), bitmap.bit_or u p i (by rw [hu, hp])]
        cases bm.bit i <;> cases u.bit i <;> cases p.bit i <;> rfl
    rw [hstep]
    exact ih (u.or p) hlen' hup

theorem bitmap.and_zero (bm : bitmap) : bm.and (zeroBitmap bm.length) = zeroBitmap bm.length := by
  induction bm with
  | nil => rfl
  | cons b bs ih =>
    simp only [zeroBitmap, List.length_cons, List.replicate, bitmap.and] at ih ⊢
    rw [ih]
    congr 1
    cases b <;> rfl

/-- C1: every leaf filter in the sources (`filterRange`, `filterStringRange`,
`filterAnyCasePhrase`) only clears bits of the input bitmap (the output's
set bits are a subset of the input's), and `filterNot.apply` /
`filterOr.apply` preserve this property whenever their child filters
have it. -/
theorem spec_C1 :
    (∀ (fr : filterRange) (bs : blockSearch) (bm : bitmap), (fr.apply bs bm).subset bm) ∧
    (∀ (fr : filterStringRange) (bs : blockSearch) (bm : bitmap), (fr.apply bs bm).subset bm) ∧
    (∀ (fp : filterAnyCasePhrase) (bs : blockSearch) (bm : bitmap), (fp.apply bs bm).subset bm) ∧
    (∀ (f : bitmap → bitmap) (bm : bitmap),
      (∀ bm', (f bm').subset bm') → (filterNotApply f bm).subset bm) ∧
    (∀ (fs : List (bitmap → bitmap)) (bm : bitmap),
      (∀ f ∈ fs, ∀ bm', (f bm').subset bm') → (filterOrApply fs bm).subset bm) :=
  ⟨filterRange_apply_subset, filterStringRange_apply_subset, filterAnyCasePhrase_apply_subset,
    fun f bm _ => filterNotApply_subset f bm, filterOrApply_subset⟩

/-- Witness for C1 at concrete inputs. -/
theorem spec_C1_witness :
    (filterNotApply bitmap.resetBits [true, false]).subset [true, false] ∧
    (filterOrApply [bitmap.resetBits] [true, false]).subset [true, false] :=
  ⟨spec_C1.2.2.2.1 bitmap.resetBits [true, false] (fun bm' => bitmap.subset_resetBits bm' bm'),
    spec_C1.2.2.2.2 [bitmap.resetBits] [true, false]
      (fun f hf bm' => by
        rw [List.mem_singleton] at hf
        subst hf
        exact bitmap.subset_resetBits bm' bm')⟩

/-- C7: `filterNot.apply` leaves the bitmap equal to its old set bits
minus the bits surviving the inner filter applied to a copy, and for an
inner filter that acts as intersection with a fixed row set, double
negation gives back the inner filter's result. -/
theorem spec_C7 :
    (∀ (f : bitmap → bitmap) (bm : bitmap), (f bm).length = bm.length →
      ∀ i, (filterNotApply f bm).bit i = (bm.bit i && !(f bm).bit i)) ∧
    (∀ (f : bitmap → bitmap) (p : bitmap), (∀ bm', f bm' = bm'.and p) →
      ∀ bm, filterNotApply (filterNotApply f) bm = f bm) := by
  constructor
  · intro f bm hlen i
    exact bitmap.bit_andNot bm (f bm) i hlen.symm
  · intro f p hf bm
    unfold filterNotApply
    rw [hf bm]
    exact bitmap.andNot_andNot_and bm p

/-- Witness for C7 at concrete inputs. -/
theorem spec_C7_witness :
    bitmap.bit (filterNotApply (fun b => bitmap.and b [true, false]) [true, true]) 0 =
      (bitmap.bit [true, true] 0 &&
        !(bitmap.bit (bitmap.and [true, true] [true, false]) 0)) ∧
    filterNotApply (filterNotApply (fun b => bitmap.and b [true, false])) [true, true] =
      bitmap.and ([true, true] : bitmap) [true, false] :=
  ⟨spec_C7.1 (fun b => bitmap.and b [true, false]) [true, true] (by rfl) 0,
    spec_C7.2 (fun b => bitmap.and b [true, false]) [true, false] (fun _ => rfl) [true, true]⟩

/-- C3: when every OR branch acts as intersection with a fixed row set,
`filterOr.apply` computes the old bitmap intersected with the union of
those sets, and the incremental scheme with its early break agrees with
applying every branch to a private copy of the bitmap and unioning. -/
theorem spec_C3 (fs : List (bitmap → bitmap)) (ps : List bitmap) (bm : bitmap)
    (hact : List.Forall₂ (fun f p => ∀ bm', f bm' = bm'.and p) fs ps)
    (hlen : ∀ p ∈ ps, p.length = bm.length) :
    filterOrApply fs bm = bm.and (ps.foldl bitmap.or (zeroBitmap bm.length)) ∧
    filterOrApply fs bm = filterOrNaive fs bm := by
  have hz : (zeroBitmap bm.length).length = bm.length := by
    simp [zeroBitmap]
  have h1 : filterOrApply fs bm = bm.and (ps.foldl bitmap.or (zeroBitmap bm.length)) := by
    unfold filterOrApply
    have h := filterOrLoop_inter bm fs ps (zeroBitmap bm.length) hact hlen hz
    rw [bitmap.and_zero] at h
    exact h
  refine ⟨h1, ?_⟩
  rw [h1]
  unfold filterOrNaive
  have h := filterOrNaive_inter bm fs ps (zeroBitmap bm.length) hact hlen hz
  rw [bitmap.and_zero] at h
  exact h.symm

/-- Witness for C3 at concrete inputs. -/
theorem spec_C3_witness :
    filterOrApply [fun bm' => bitmap.and bm' [true, false]] [true, true] =
      bitmap.and [true, true] ([[true, false]].foldl bitmap.or (zeroBitmap 2)) ∧
    filterOrApply [fun bm' => bitmap.and bm' [true, false]] [true, true] =
      filterOrNaive [fun bm' => bitmap.and bm' [true, false]] [true, true] :=
  spec_C3 [fun bm' => bitmap.and bm' [true, false]] [[true, false]] [true, true]
    (List.Forall₂.cons (fun _ => rfl) List.Forall₂.nil) (by decide)

theorem goLt_nil_right (a : GoStr) : goLt a [] = false := by
  cases a <;> rfl

theorem matchStringRange_nil_of_rev (minValue maxValue : GoStr)
    (h : goLt maxValue minValue = true) :
    matchStringRange [] minValue maxValue = false := by
  cases minValue with
  | nil => rw [goLt_nil_right] at h; cases h
  | cons c cs => rfl

/-- C4: when a field has neither a const-column value nor a column header,
the three field-valued filters behave as if every row's value were the
empty string — `filterAnyCasePhrase` keeps all bits iff its phrase is
empty, `filterStringRange` keeps all bits iff the empty string is inside
`[minValue, maxValue)`, and `filterRange` clears all bits. -/
theorem spec_C4 :
    (∀ (fr : filterRange) (bs : blockSearch) (bm : bitmap),
      getConstColumnValue bs fr.fieldName = [] → getColumnHeader bs fr.fieldName = none →
      fr.apply bs bm = bm.resetBits) ∧
    (∀ (fr : filterStringRange) (bs : blockSearch) (bm : bitmap),
      getConstColumnValue bs fr.fieldName = [] → getColumnHeader bs fr.fieldName = none →
      fr.apply bs bm =
        if matchStringRange [] fr.minValue fr.maxValue then bm else bm.resetBits) ∧
    (∀ (fp : filterAnyCasePhrase) (bs : blockSearch) (bm : bitmap),
      getConstColumnValue bs fp.fieldName = [] → getColumnHeader bs fp.fieldName = none →
      fp.apply bs bm = if fp.phrase = [] then bm else bm.resetBits) := by
  refine ⟨?_, ?_, ?_⟩
  · intro fr bs bm hconst hch
    unfold filterRange.apply
    rw [hconst, hch]
    split <;> simp
  · intro fr bs bm hconst hch
    unfold filterStringRange.apply
    rw [hconst, hch]
    split
    · rename_i hrev
      rw [matchStringRange_nil_of_rev fr.minValue fr.maxValue hrev]
      simp
    · simp
  · intro fp bs bm hconst hch
    unfold filterAnyCasePhrase.apply
    rw [hconst, hch]
    simp only [ne_eq, not_true_eq_false, if_false, reduceIte]
    have hlen : (toLowerBytes fp.phrase).length = fp.phrase.length := by
      simp [toLowerBytes]
    cases hph : fp.phrase with
    | nil => simp [hph, toLowerBytes]
    | cons c cs =>
      rw [hph] at hlen
      simp only [List.length_cons] at hlen
      simp [hlen]

/-- Witness for C4: a block with no columns at all. -/
theorem spec_C4_witness :
    filterRange.apply ⟨gostr "foo", qnum.ofNat 0, qnum.ofNat 1⟩ ⟨[], []⟩ [true, true] =
      bitmap.resetBits [true, true] ∧
    filterStringRange.apply ⟨gostr "foo", [], [65]⟩ ⟨[], []⟩ [true, true] =
      (if matchStringRange [] [] [65] then [true, true] else bitmap.resetBits [true, true]) ∧
    filterAnyCasePhrase.apply ⟨gostr "foo", gostr "x"⟩ ⟨[], []⟩ [true, true] =
      (if (gostr "x") = ([] : GoStr) then [true, true] else bitmap.resetBits [true, true]) :=
  ⟨spec_C4.1 ⟨gostr "foo", qnum.ofNat 0, qnum.ofNat 1⟩ ⟨[], []⟩ [true, true] rfl rfl,
    spec_C4.2.1 ⟨gostr "foo", [], [65]⟩ ⟨[], []⟩ [true, true] rfl rfl,
    spec_C4.2.2 ⟨gostr "foo", gostr "x"⟩ ⟨[], []⟩ [true, true] rfl rfl⟩

theorem goLt_trans (a b c : GoStr) (h1 : goLt a b = true) (h2 : goLt b c = true) :
    goLt a c = true := by
  induction a generalizing b c with
  | nil =>
    cases b with
    | nil => cases h1
    | cons y ys =>
      cases c with
      | nil => rw [goLt_nil_right] at h2; cases h2
      | cons z zs => rfl
  | cons x xs ih =>
    cases b with
    | nil => rw [goLt_nil_right] at h1; cases h1
    | cons y ys =>
      cases c with
      | nil => rw [goLt_nil_right] at h2; cases h2
      | cons z zs =>
        simp only [goLt] at h1 h2 ⊢
        by_cases hxy : x < y
        · by_cases hyz : y < z
          · simp [Nat.lt_trans hxy hyz]
          · by_cases hzy : z < y
            · rw [if_neg hyz, if_pos hzy] at h2; cases h2
            · have hyz' : y = z := Nat.le_antisymm (Nat.le_of_not_lt hzy) (Nat.le_of_not_lt hyz)
              simp [hyz' ▸ hxy]
        · by_cases hyx : y < x
          · rw [if_neg hxy, if_pos hyx] at h1; cases h1
          · have hxy' : x = y := Nat.le_antisymm (Nat.le_of_not_lt hyx) (Nat.le_of_not_lt hxy)
            rw [if_neg hxy, if_neg hyx] at h1
            by_cases hyz : y < z
            · simp [hxy' ▸ hyz]
            · by_cases hzy : z < y
              · rw [if_neg hyz, if_pos hzy] at h2; cases h2
              · rw [if_neg hyz, if_neg hzy] at h2
                have hyz' : y = z := Nat.le_antisymm (Nat.le_of_not_lt hzy) (Nat.le_of_not_lt hyz)
                have hxz : ¬ x < z := by omega
                have hzx : ¬ z < x := by omega
                rw [if_neg hxz, if_neg hzx]
                exact ih ys zs h1 h2

theorem matchStringRange_false_of_rev (s minValue maxValue : GoStr)
    (h : goLt maxValue minValue = true) :
    matchStringRange s minValue maxValue = false := by
  unfold matchStringRange
  cases hlt : goLt s maxValue with
  | false => simp [hlt]
  | true =>
    have : goLt s minValue = true := goLt_trans s maxValue minValue hlt h
    simp [goLe, this]

theorem bitmap.forEachSetBit_false (bm : bitmap) (f : Nat → Bool) (h : ∀ i, f i = false) :
    bm.forEachSetBit f = bm.resetBits := by
  induction bm generalizing f with
  | nil => rfl
  | cons b bs ih =>
    simp only [bitmap.forEachSetBit, bitmap.resetBits, List.map_cons, h 0, Bool.and_false]
    rw [← bitmap.resetBits]
    exact congrArg _ (ih _ fun i => h (i + 1))

theorem visitValues_false (ch : columnHeader) (bm : bitmap) (f : GoStr → Bool)
    (h : ∀ v, f v = false) : visitValues ch bm f = bm.resetBits :=
  bitmap.forEachSetBit_false bm _ fun _ => h _

/-- C5 (amended): on ipv4 and iso8601 columns `filterRange.apply` clears
every bit regardless of the numeric interval; `filterStringRange.apply`
clears every bit when its fast-path check fires (`minValue > "9"` or
`maxValue < "0"`), and otherwise formats each visited row's value to its
canonical string form and keeps the row iff that string lies in
`[minValue, maxValue)`. -/
theorem spec_C5 :
    (∀ (fr : filterRange) (bs : blockSearch) (bm : bitmap) (ch : columnHeader),
      getConstColumnValue bs fr.fieldName = [] → getColumnHeader bs fr.fieldName = some ch →
      (ch.vType = valueType.ipv4 ∨ ch.vType = valueType.timestampISO8601) →
      fr.apply bs bm = bm.resetBits) ∧
    (∀ (fr : filterStringRange) (bs : blockSearch) (bm : bitmap) (ch : columnHeader),
      getConstColumnValue bs fr.fieldName = [] → getColumnHeader bs fr.fieldName = some ch →
      ch.vType = valueType.ipv4 →
      fr.apply bs bm =
        if goLt (gostr "9") fr.minValue || goLt fr.maxValue (gostr "0") then bm.resetBits
        else
          visitValues ch bm fun v =>
            matchStringRange (toIPv4String v) fr.minValue fr.maxValue) ∧
    (∀ (fr : filterStringRange) (bs : blockSearch) (bm : bitmap) (ch : columnHeader),
      getConstColumnValue bs fr.fieldName = [] → getColumnHeader bs fr.fieldName = some ch →
      ch.vType = valueType.timestampISO8601 →
      fr.apply bs bm =
        if goLt (gostr "9") fr.minValue || goLt fr.maxValue (gostr "0") then bm.resetBits
        else
          visitValues ch bm fun v =>
            matchStringRange (toTimestampISO8601String v) fr.minValue fr.maxValue) := by
  refine ⟨?_, ?_, ?_⟩
  · intro fr bs bm ch hconst hch htype
    unfold filterRange.apply
    rw [hconst, hch]
    rcases htype with h | h <;> split <;> simp [h]
  · intro fr bs bm ch hconst hch htype
    unfold filterStringRange.apply
    rw [hconst, hch]
    split
    · rename_i hrev
      split
      · rfl
      · rw [visitValues_false ch bm _
          (fun v => matchStringRange_false_of_rev (toIPv4String v) fr.minValue fr.maxValue hrev)]
    · simp only [ne_eq, not_true_eq_false, if_false, reduceIte, htype]
      rfl
  · intro fr bs bm ch hconst hch htype
    unfold filterStringRange.apply
    rw [hconst, hch]
    split
    · rename_i hrev
      split
      · rfl
      · rw [visitValues_false ch bm _
          (fun v =>
            matchStringRange_false_of_rev (toTimestampISO8601String v) fr.minValue fr.maxValue
              hrev)]
    · simp only [ne_eq, not_true_eq_false, if_false, reduceIte, htype]
      rfl

/-- A one-row ipv4 column holding 9.0.0.0, for C5's concrete instances. -/
def ipv4Header : columnHeader :=
  { name := gostr "ip", vType := .ipv4, minValue := 0, maxValue := 0,
    valuesDict := [], encodedValues := [[9, 0, 0, 0]] }

/-- A block holding only `ipv4Header`. -/
def ipv4Block : blockSearch := ⟨[], [ipv4Header]⟩

/-- Counterexample for C5 as frozen: the row's canonical string
`9.0.0.0` lies in `["9.", ":")`, yet `filterStringRange.apply` clears the
row, because the fast-path check `minValue > "9"` fires. -/
theorem spec_C5_cex :
    matchStringRange (toIPv4String [9, 0, 0, 0]) (gostr "9.") (gostr ":") = true ∧
    filterStringRange.apply ⟨gostr "ip", gostr "9.", gostr ":"⟩ ipv4Block [true] = [false] :=
  ⟨by decide, by decide⟩

/-- Witness for C5 at a concrete block. -/
theorem spec_C5_witness :
    filterRange.apply ⟨gostr "ip", qnum.ofNat 0, qnum.ofNat 1⟩ ipv4Block [true] =
      bitmap.resetBits [true] ∧
    filterStringRange.apply ⟨gostr "ip", gostr "1", gostr ":"⟩ ipv4Block [true] =
      (if goLt (gostr "9") (gostr "1") || goLt (gostr ":") (gostr "0") then
        bitmap.resetBits [true]
      else
        visitValues ipv4Header [true] fun v =>
          matchStringRange (toIPv4String v) (gostr "1") (gostr ":")) :=
  ⟨spec_C5.1 ⟨gostr "ip", qnum.ofNat 0, qnum.ofNat 1⟩ ipv4Block [true] ipv4Header rfl rfl
      (Or.inl rfl),
    spec_C5.2.1 ⟨gostr "ip", gostr "1", gostr ":"⟩ ipv4Block [true] ipv4Header rfl rfl rfl⟩

theorem goLt_iff_lex (a b : GoStr) : goLt a b = true ↔ List.Lex (· < ·) a b := by
  induction a generalizing b with
  | nil =>
    cases b with
    | nil =>
      constructor
      · intro h; cases h
      · intro h; cases h
    | cons y ys =>
      constructor
      · intro _; exact List.Lex.nil
      · intro _; rfl
  | cons x xs ih =>
    cases b with
    | nil =>
      constructor
      · intro h; rw [goLt_nil_right] at h; cases h
      · intro h; cases h
    | cons y ys =>
      simp only [goLt]
      by_cases hxy : x < y
      · simp only [if_pos hxy]
        constructor
        · intro _; exact List.Lex.rel hxy
        · intro _; trivial
      · rw [if_neg hxy]
        by_cases hyx : y < x
        · simp only [if_pos hyx]
          constructor
          · intro h; cases h
          · intro h
            cases h with
            | rel h' => exact absurd h' hxy
            | cons h' => exact absurd hyx (Nat.lt_irrefl x)
        · rw [if_neg hyx]
          have hxy' : x = y := Nat.le_antisymm (Nat.le_of_not_lt hyx) (Nat.le_of_not_lt hxy)
          subst hxy'
          rw [ih ys]
          constructor
          · intro h; exact List.Lex.cons h
          · intro h
            cases h with
            | rel h' => exact absurd h' hxy
            | cons h' => exact h'

theorem goLt_eq_false_iff (a b : GoStr) : goLt a b = false ↔ (a = b ∨ goLt b a = true) := by
  induction a generalizing b with
  | nil =>
    cases b with
    | nil => simp [goLt]
    | cons y ys => simp [goLt, goLt_nil_right]
  | cons x xs ih =>
    cases b with
    | nil => simp [goLt_nil_right, goLt]
    | cons y ys =>
      simp only [goLt, List.cons.injEq]
      by_cases hxy : x < y
      · have h2 : ¬ y < x := by omega
        have hne : ¬ x = y := by omega
        simp [hxy, h2, hne]
      · by_cases hyx : y < x
        · have hne : ¬ x = y := by omega
          simp [hxy, hyx, hne]
        · have hxy' : x = y := by omega
          subst hxy'
          simp [hxy, ih ys]

/-- The five-row string column of C9's end-to-end scenario. -/
def stringRangeBlock : blockSearch :=
  ⟨[], [{ name := gostr "foo", vType := .string, minValue := 0, maxValue := 0,
          valuesDict := [],
          encodedValues := [gostr "alpha", gostr "mango", gostr "oregano", gostr "pear",
            gostr "m"] }]⟩

/-- C9: `matchStringRange` holds iff `minValue ≤ s < maxValue` in byte-wise
lexicographic order (inclusive left, exclusive right), and
`string_range("m","p")` over `["alpha","mango","oregano","pear","m"]`
keeps exactly rows {1,2,4}. -/
theorem spec_C9 :
    (∀ s minValue maxValue : GoStr,
      matchStringRange s minValue maxValue = true ↔
        ((s = minValue ∨ List.Lex (· < ·) minValue s) ∧ List.Lex (· < ·) s maxValue)) ∧
    filterStringRange.apply ⟨gostr "foo", gostr "m", gostr "p"⟩ stringRangeBlock
      [true, true, true, true, true] = [false, true, true, false, true] := by
  constructor
  · intro s minValue maxValue
    unfold matchStringRange goLe
    rw [Bool.and_eq_true, Bool.not_eq_true']
    rw [goLt_eq_false_iff s minValue, goLt_iff_lex s maxValue, goLt_iff_lex minValue s]
  · decide

theorem List.getD_mem_of_lt {α : Type _} (l : List α) (i : Nat) (d : α) (h : i < l.length) :
    l.getD i d ∈ l := by
  rw [List.getD_eq_getElem l d h]
  exact List.getElem_mem h

/-- Byte width of a uintN column type. -/
def uintWidth : valueType → Option Nat
  | .uint8 => some 1
  | .uint16 => some 2
  | .uint32 => some 4
  | .uint64 => some 8
  | _ => none

theorem matchUintRangeCore_bit (ch : columnHeader) (bm : bitmap) (minV maxV : qnum) (w : Nat)
    (hwf : ∀ v ∈ ch.encodedValues,
      v.length = w ∧ ch.minValue ≤ unmarshalBE v ∧ unmarshalBE v ≤ ch.maxValue)
    (hbmlen : bm.length = ch.encodedValues.length) (i : Nat) (hi : i < bm.length) :
    (if maxV.lt (qnum.ofNat 0) || decide ((toUint64Range minV maxV).1 > ch.maxValue) ||
        decide ((toUint64Range minV maxV).2 < ch.minValue) then bm.resetBits
      else
        visitValues ch bm fun v =>
          v.length == w &&
            (decide ((toUint64Range minV maxV).1 ≤ unmarshalBE v) &&
              decide (unmarshalBE v ≤ (toUint64Range minV maxV).2))).bit i =
    (bm.bit i &&
      (!(maxV.lt (qnum.ofNat 0)) &&
        (decide ((toUint64Range minV maxV).1 ≤ unmarshalBE (ch.encodedValues.getD i [])) &&
          decide (unmarshalBE (ch.encodedValues.getD i []) ≤ (toUint64Range minV maxV).2)))) := by
  have hv := hwf (ch.encodedValues.getD i []) (List.getD_mem_of_lt _ i [] (hbmlen ▸ hi))
  split
  · rename_i hskip
    rw [bitmap.bit_resetBits]
    rcases Bool.or_eq_true _ _ |>.mp hskip with h | h
    · rcases Bool.or_eq_true _ _ |>.mp h with h | h
      · rw [h]
        simp
      · have hle : ¬ (toUint64Range minV maxV).1 ≤ unmarshalBE (ch.encodedValues.getD i []) := by
          have := of_decide_eq_true h
          omega
        rw [decide_eq_false hle]
        simp
    · have hle : ¬ unmarshalBE (ch.encodedValues.getD i []) ≤ (toUint64Range minV maxV).2 := by
        have := of_decide_eq_true h
        omega
      rw [decide_eq_false hle]
      simp
  · rename_i hskip
    rw [Bool.or_eq_true, Bool.or_eq_true] at hskip
    push_neg at hskip
    have h1 : maxV.lt (qnum.ofNat 0) = false := Bool.eq_false_iff.mpr hskip.1.1
    unfold visitValues
    rw [bitmap.bit_forEachSetBit]
    simp only []
    rw [hv.1, h1]
    simp

/-- C8 (amended): on a uintN column, `filterRange` clears every bit when
`minValue > maxValue` and also when `maxValue < 0`; when
`minValue ≤ maxValue` a stored value `n` survives iff `maxValue ≥ 0` and
`clamp(ceil(minValue)) ≤ n ≤ clamp(floor(maxValue))`, clamping into
`[0, 2^64-1]` (`toUint64Range`). -/
theorem spec_C8 (fr : filterRange) (bs : blockSearch) (bm : bitmap) (ch : columnHeader)
    (w : Nat) (hconst : getConstColumnValue bs fr.fieldName = [])
    (hch : getColumnHeader bs fr.fieldName = some ch)
    (hw : uintWidth ch.vType = some w)
    (hwf : ∀ v ∈ ch.encodedValues,
      v.length = w ∧ ch.minValue ≤ unmarshalBE v ∧ unmarshalBE v ≤ ch.maxValue)
    (hbmlen : bm.length = ch.encodedValues.length) :
    (fr.maxValue.lt fr.minValue = true → fr.apply bs bm = bm.resetBits) ∧
    (fr.maxValue.lt (qnum.ofNat 0) = true → fr.apply bs bm = bm.resetBits) ∧
    (fr.maxValue.lt fr.minValue = false → ∀ i, i < bm.length →
      (fr.apply bs bm).bit i =
        (bm.bit i &&
          (!(fr.maxValue.lt (qnum.ofNat 0)) &&
            (decide
                ((toUint64Range fr.minValue fr.maxValue).1 ≤
                  unmarshalBE (ch.encodedValues.getD i [])) &&
              decide
                (unmarshalBE (ch.encodedValues.getD i []) ≤
                  (toUint64Range fr.minValue fr.maxValue).2))))) := by
  refine ⟨?_, ?_, ?_⟩
  · intro hrev
    unfold filterRange.apply
    rw [hrev]
    simp
  · intro hneg
    unfold filterRange.apply
    rw [hconst, hch]
    split
    · simp
    · simp only [ne_eq, not_true_eq_false, if_false, reduceIte]
      cases htype : ch.vType
      case uint8 => unfold matchUint8ByRange; rw [hneg]; simp
      case uint16 => unfold matchUint16ByRange; rw [hneg]; simp
      case uint32 => unfold matchUint32ByRange; rw [hneg]; simp
      case uint64 => unfold matchUint64ByRange; rw [hneg]; simp
      all_goals rw [htype] at hw
      all_goals simp [uintWidth] at hw
  · intro hord i hi
    unfold filterRange.apply
    rw [hconst, hch, hord]
    simp only [ne_eq, not_true_eq_false, if_false, reduceIte, Bool.false_eq_true]
    cases htype : ch.vType <;> simp [htype, uintWidth] at hw <;> subst hw
    case uint8 =>
      exact matchUintRangeCore_bit ch bm fr.minValue fr.maxValue 1 hwf hbmlen i hi
    case uint16 =>
      exact matchUintRangeCore_bit ch bm fr.minValue fr.maxValue 2 hwf hbmlen i hi
    case uint32 =>
      exact matchUintRangeCore_bit ch bm fr.minValue fr.maxValue 4 hwf hbmlen i hi
    case uint64 =>
      exact matchUintRangeCore_bit ch bm fr.minValue fr.maxValue 8 hwf hbmlen i hi

/-- A one-row uint64 column storing 2^64-1, for C8's counterexample. -/
def uint64MaxBlock : blockSearch :=
  ⟨[], [{ name := gostr "foo", vType := .uint64,
          minValue := 18446744073709551615, maxValue := 18446744073709551615,
          valuesDict := [], encodedValues := [[255, 255, 255, 255, 255, 255, 255, 255]] }]⟩

/-- Counterexample for C8 as frozen: with `minValue = 2^70 > maxValue = 2^69`
both clamps saturate at `2^64-1`, so the claim's condition
`maxValue ≥ 0 ∧ clamp(ceil(min)) ≤ n ≤ clamp(floor(max))` holds for the
stored value `n = 2^64-1`, yet `filterRange.apply` clears the row because
of the reversed-interval fast path. -/
theorem spec_C8_cex :
    (qnum.ofNat (2 ^ 69)).lt (qnum.ofNat 0) = false ∧
    toUint64Range (qnum.ofNat (2 ^ 70)) (qnum.ofNat (2 ^ 69)) =
      (18446744073709551615, 18446744073709551615) ∧
    unmarshalBE [255, 255, 255, 255, 255, 255, 255, 255] = 18446744073709551615 ∧
    filterRange.apply ⟨gostr "foo", qnum.ofNat (2 ^ 70), qnum.ofNat (2 ^ 69)⟩
      uint64MaxBlock [true] = [false] := by
  refine ⟨by decide, by decide, by decide, by decide⟩

/-- A two-row uint8 column, for C8's witness. -/
def uint8Block : blockSearch :=
  ⟨[], [{ name := gostr "foo", vType := .uint8, minValue := 0, maxValue := 5,
          valuesDict := [], encodedValues := [[5], [0]] }]⟩

/-- Witness for C8 at a concrete block. -/
theorem spec_C8_witness :
    bitmap.bit
        (filterRange.apply ⟨gostr "foo", qnum.ofNat 1, qnum.ofNat 10⟩ uint8Block [true, true])
        0 =
      (bitmap.bit [true, true] 0 &&
        (!((qnum.ofNat 10).lt (qnum.ofNat 0)) &&
          (decide
              ((toUint64Range (qnum.ofNat 1) (qnum.ofNat 10)).1 ≤
                unmarshalBE (List.getD [[5], [0]] 0 [])) &&
            decide
              (unmarshalBE (List.getD [[5], [0]] 0 []) ≤
                (toUint64Range (qnum.ofNat 1) (qnum.ofNat 10)).2)))) :=
  (spec_C8 ⟨gostr "foo", qnum.ofNat 1, qnum.ofNat 10⟩ uint8Block [true, true]
      { name := gostr "foo", vType := .uint8, minValue := 0, maxValue := 5,
        valuesDict := [], encodedValues := [[5], [0]] } 1 rfl rfl rfl (by decide) rfl).2.2
    (by decide) 0 (by decide)

/-!
## `fieldsSet` (src `fields_set.go`)

The Go `fieldsSet` is `map[string]struct{}`; its value is the set of
keys, embedded as `Finset String`.
-/

/-- The key set of a `fieldsSet`. -/
abbrev fieldsSet := Finset String

/-- `fieldsSet.contains`: membership, with `"*"` matching every field. -/
def fieldsSet.contains (fs : fieldsSet) (field : String) : Bool :=
  decide (field ∈ fs) || decide ("*" ∈ fs)

/-- `fieldsSet.remove`: removing `"*"` resets the set; other fields are
deleted only when the set does not contain `"*"`. -/
def fieldsSet.remove (fs : fieldsSet) (field : String) : fieldsSet :=
  if field = "*" then ∅
  else if fieldsSet.contains fs "*" then fs
  else fs.erase field

/-- `fieldsSet.add`: a set containing `"*"` absorbs every add; adding
`"*"` resets the set to the singleton `{"*"}`. -/
def fieldsSet.add (fs : fieldsSet) (field : String) : fieldsSet :=
  if fieldsSet.contains fs "*" then fs
  else if field = "*" then {"*"}
  else insert field fs

/-- `fieldsSet.removeAll`. -/
def fieldsSet.removeAll (fs : fieldsSet) (fields : List String) : fieldsSet :=
  fields.foldl fieldsSet.remove fs

/-- `fieldsSet.addAll`. -/
def fieldsSet.addAll (fs : fieldsSet) (fields : List String) : fieldsSet :=
  fields.foldl fieldsSet.add fs

theorem fieldsSet.contains_star {fs : fieldsSet} (h : "*" ∈ fs) :
    fieldsSet.contains fs "*" = true := by
  simp [fieldsSet.contains, h]

/-- C10 (amended): a `fieldsSet` containing `"*"` answers `contains`
positively for every field, absorbs every `add`, and ignores `remove`
of anything but `"*"`; `remove("*")` resets the set to empty; and
`add("*")` yields the singleton `{"*"}` whenever the set did not already
contain `"*"` (when it did, `add` leaves the set unchanged). -/
theorem spec_C10 :
    (∀ fs : fieldsSet, "*" ∈ fs →
      (∀ f, fieldsSet.contains fs f = true) ∧
      (∀ f, fieldsSet.add fs f = fs) ∧
      (∀ f, f ≠ "*" → fieldsSet.remove fs f = fs) ∧
      fieldsSet.remove fs "*" = ∅) ∧
    (∀ fs : fieldsSet, "*" ∉ fs → fieldsSet.add fs "*" = {"*"}) := by
  constructor
  · intro fs hstar
    refine ⟨?_, ?_, ?_, ?_⟩
    · intro f
      simp [fieldsSet.contains, hstar]
    · intro f
      simp [fieldsSet.add, fieldsSet.contains, hstar]
    · intro f hf
      simp [fieldsSet.remove, hf, fieldsSet.contains, hstar]
    · simp [fieldsSet.remove]
  · intro fs hstar
    simp [fieldsSet.add, fieldsSet.contains, hstar]

/-- Counterexample for C10 as frozen: on the raw map state `{"*", "a"}`,
`add("*")` is a no-op and does not produce the singleton `{"*"}`. -/
theorem spec_C10_cex :
    fieldsSet.add {"*", "a"} "*" = ({"*", "a"} : Finset String) ∧
    ({"*", "a"} : Finset String) ≠ ({"*"} : Finset String) :=
  ⟨by decide, by decide⟩

/-- Witness for C10 at concrete sets. -/
theorem spec_C10_witness :
    fieldsSet.contains {"*"} "x" = true ∧ fieldsSet.add {"a"} "*" = ({"*"} : Finset String) :=
  ⟨(spec_C10.1 {"*"} (by decide)).1 "x", spec_C10.2 {"a"} (by decide)⟩

/-!
## `count_empty` (src `statsCountEmpty` and its processor)

The `blockResult` side (columns as the pipe pipeline sees them, the
`getColumnByName` / `getValueAtRow` / `getValues` accessors and
`getColumns`) is declared outside the provided sources and modelled from
the spec; `updateStatsForAllRows` / `updateStatsForRow` are translated
from the source, each returning the amount added to `rowsCount`.
-/

/-- A column of a `blockResult`: const columns store their single value in
`encodedValues[0]`; the `_time` column is flagged `isTime`. -/
structure brColumn where
  name : GoStr
  isConst : Bool
  isTime : Bool
  vType : valueType
  dictValues : List GoStr
  encodedValues : List GoStr
deriving DecidableEq

/-- The projected rows a pipe stage sees. -/
structure blockResult where
  timestamps : List Nat
  columns : List brColumn
deriving DecidableEq

/-- Modelled from the spec: an absent column behaves as a const column
with the empty value. -/
def emptyBRColumn (name : GoStr) : brColumn :=
  ⟨name, true, false, .string, [], [[]]⟩

/-- Modelled from the spec: `br.getColumnByName`. -/
def getColumnByName (br : blockResult) (name : GoStr) : brColumn :=
  match br.columns.find? (fun c => c.name == name) with
  | some c => c
  | none => emptyBRColumn name

/-- Modelled from the spec: `c.getValueAtRow(br, rowIdx)` — the canonical
string form of the row's value (const value for const columns, RFC3339
timestamp for the `_time` column, typed decoding otherwise). -/
def getValueAtRow (c : brColumn) (br : blockResult) (rowIdx : Nat) : GoStr :=
  if c.isConst then c.encodedValues.getD 0 []
  else if c.isTime then nanosToISO8601 (br.timestamps.getD rowIdx 0)
  else
    match c.vType with
    | .string => c.encodedValues.getD rowIdx []
    | .dict => c.dictValues.getD ((c.encodedValues.getD rowIdx []).getD 0 0) []
    | .uint8 => toUint8String (c.encodedValues.getD rowIdx [])
    | .uint16 => toUint16String (c.encodedValues.getD rowIdx [])
    | .uint32 => toUint32String (c.encodedValues.getD rowIdx [])
    | .uint64 => toUint64String (c.encodedValues.getD rowIdx [])
    | .float64 => toFloat64String (c.encodedValues.getD rowIdx [])
    | .ipv4 => toIPv4String (c.encodedValues.getD rowIdx [])
    | .timestampISO8601 => toTimestampISO8601String (c.encodedValues.getD rowIdx [])

/-- Modelled from the spec: `c.getValues(br)` — one value per row. -/
def getValues (c : brColumn) (br : blockResult) : List GoStr :=
  (List.range br.timestamps.length).map (getValueAtRow c br)

/-- The `count_empty` aggregator: its field list and the memoised
`containsStar` flag. -/
structure statsCountEmpty where
  fields : List GoStr
  containsStar : Bool

/-- The multi-field loop of `updateStatsForAllRows`: `Sum.inl d` models an
early `return` after adding `d` to `rowsCount`; `Sum.inr bm` is the
running bitmap of rows whose fields so far are all empty. -/
def countEmptyAllRowsLoop (br : blockResult) : List GoStr → bitmap → Nat ⊕ bitmap
  | [], bm => Sum.inr bm
  | f :: rest, bm =>
    let c := getColumnByName br f
    if c.isConst then
      if c.encodedValues.getD 0 [] == [] then Sum.inl br.timestamps.length
      else countEmptyAllRowsLoop br rest bm
    else if c.isTime then Sum.inl 0
    else
      match c.vType with
      | .string =>
        countEmptyAllRowsLoop br rest
          (bm.forEachSetBit fun i => c.encodedValues.getD i [] == [])
      | .dict =>
        if c.dictValues.contains [] then
          countEmptyAllRowsLoop br rest
            (bm.forEachSetBit fun i =>
              c.dictValues.getD ((c.encodedValues.getD i []).getD 0 0) [] == [])
        else Sum.inl 0
      | _ => Sum.inl 0

/-- `statsCountEmptyProcessor.updateStatsForAllRows`, as the amount added
to `rowsCount`. -/
def updateStatsForAllRows (sc : statsCountEmpty) (br : blockResult) : Nat :=
  if sc.containsStar then
    bitmap.onesCount
      (br.columns.foldl
        (fun bm c => bm.forEachSetBit fun idx => (getValues c br).getD idx [] == [])
        (bitmap.setBits (zeroBitmap br.timestamps.length)))
  else if sc.fields.length == 1 then
    let c := getColumnByName br (sc.fields.getD 0 [])
    if c.isConst then
      if c.encodedValues.getD 0 [] == [] then br.timestamps.length else 0
    else if c.isTime then 0
    else
      match c.vType with
      | .string => c.encodedValues.countP fun v => v == []
      | .dict =>
        match c.dictValues.findIdx? (fun v => v == []) with
        | none => 0
        | some zeroDictIdx => c.encodedValues.countP fun v => v.getD 0 0 == zeroDictIdx
      | _ => 0
  else
    match countEmptyAllRowsLoop br sc.fields (bitmap.setBits (zeroBitmap br.timestamps.length)) with
    | Sum.inl d => d
    | Sum.inr bm => bm.onesCount

/-- `statsCountEmptyProcessor.updateStatsForRow`, as the amount added to
`rowsCount` for the given row. -/
def updateStatsForRow (sc : statsCountEmpty) (br : blockResult) (rowIdx : Nat) : Nat :=
  if sc.containsStar then
    if br.columns.all (fun c => getValueAtRow c br rowIdx == []) then 1 else 0
  else if sc.fields.length == 1 then
    let c := getColumnByName br (sc.fields.getD 0 [])
    if c.isConst then
      if c.encodedValues.getD 0 [] == [] then 1 else 0
    else if c.isTime then 0
    else
      match c.vType with
      | .string => if c.encodedValues.getD rowIdx [] == [] then 1 else 0
      | .dict =>
        if c.dictValues.getD ((c.encodedValues.getD rowIdx []).getD 0 0) [] == [] then 1 else 0
      | _ => 0
  else
    if sc.fields.all (fun f => getValueAtRow (getColumnByName br f) br rowIdx == []) then 1
    else 0

/-- The two-row block of C2's failing input: field `a` is a const column
with the empty value, field `b` is a string column `["", "x"]`. -/
def countEmptyBlock : blockResult :=
  { timestamps := [0, 0]
    columns :=
      [⟨gostr "a", true, false, .string, [], [[]]⟩,
        ⟨gostr "b", false, false, .string, [], [[], gostr "x"]⟩] }

/-- `count_empty(a, b)`. -/
def countEmptyAB : statsCountEmpty := ⟨[gostr "a", gostr "b"], false⟩

/-- C2's failing input evaluated: exactly one row (row 0) has both `a`
and `b` empty — `updateStatsForRow` sums to 1 over the block — but
`updateStatsForAllRows` adds 2: on seeing the const-empty field `a` it
counts every row and returns, ignoring field `b`. -/
theorem spec_C2_bug :
    updateStatsForAllRows countEmptyAB countEmptyBlock = 2 ∧
    updateStatsForRow countEmptyAB countEmptyBlock 0 +
        updateStatsForRow countEmptyAB countEmptyBlock 1 = 1 ∧
    ((List.range countEmptyBlock.timestamps.length).filter fun i =>
        countEmptyAB.fields.all fun f =>
          getValueAtRow (getColumnByName countEmptyBlock f) countEmptyBlock i == []).length =
      1 :=
  ⟨by decide, by decide, by decide⟩


/-!
## LogsQL query-text fragment: lexer, parser, canonical printing

Modelled from the spec (§4.1–§4.2): ParseQuery and Query.String are not
in the provided sources (only their tests are), so a fragment of the
query language is modelled from the spec's words: barewords, double-quoted
strings, `(`/`)`/`:`/`!` punctuation, case-insensitive keywords
`and`/`or`/`not`, implicit AND between juxtaposed atoms, precedence
OR < AND < NOT < atom, `field:phrase` atoms, double-negation elimination,
reserved function names quoted when used as plain words, and the empty
field aliasing `_msg` (the model normalises `_msg` to the empty field at
parse time).

The fragment deliberately omits the parts of the spec grammar whose
canonical forms the spec does not pin down and whose sources are not
provided: the function forms (`exact`, `i`, `in`, `ipv4_range`,
`len_range`, `range`, `re`, `seq`, `string_range`), the `_time` and
`_stream` atoms, trailing-`*` prefix filters, single-quote and backtick
quoting with escapes, the two-character comparators, and pipes.  The
round-trip theorem below is therefore a result about this sub-language
only and is not claimed to settle the round-trip property of the full
parser.
-/

/-- Bareword characters (spec §4.1: letters, digits, `_`, `.`, `-`, `+`,
`/`; `:` is always its own token). -/
def isWordChar (c : Char) : Bool :=
  c.isAlphanum || c = '_' || c = '.' || c = '-' || c = '+' || c = '/'

/-- Query tokens: punctuation, `!`, and words (with a flag recording
whether the word was quoted — quoted keywords are plain phrases). -/
inductive Tok
  | lparen
  | rparen
  | colon
  | bang
  | word (w : List Char) (quoted : Bool)
deriving DecidableEq

/-- Split a leading run of bareword characters. -/
def takeWordChars : List Char → List Char × List Char
  | [] => ([], [])
  | c :: cs =>
    if isWordChar c then
      let (w, r) := takeWordChars cs
      (c :: w, r)
    else ([], c :: cs)

theorem takeWordChars_length (l : List Char) : (takeWordChars l).2.length ≤ l.length := by
  induction l with
  | nil => simp [takeWordChars]
  | cons c cs ih =>
    simp only [takeWordChars]
    split
    · simpa using Nat.le_succ_of_le ih
    · simp

/-- Scan a double-quoted token: the body up to the closing quote (no
escapes in the fragment; a backslash is refused). -/
def lexQuoted : List Char → Option (List Char × List Char)
  | [] => none
  | c :: cs =>
    if c = '"' then some ([], cs)
    else if c = '\\' then none
    else
      match lexQuoted cs with
      | none => none
      | some (w, rest) => some (c :: w, rest)

theorem lexQuoted_length (s : List Char) (w : List Char) (rest : List Char)
    (h : lexQuoted s = some (w, rest)) : rest.length < s.length := by
  induction s generalizing w rest with
  | nil => simp [lexQuoted] at h
  | cons c cs ih =>
    simp only [lexQuoted] at h
    split at h
    · cases h
      simp
    · split at h
      · cases h
      · split at h
        · cases h
        · rename_i w' rest' heq
          cases h
          exact Nat.lt_succ_of_lt (ih w' rest heq)

/-- The query-fragment AST: phrases (with an optional field name; the
empty field is the `_msg` default), AND/OR lists and NOT. -/
inductive QF
  | phrase (fieldName : List Char) (phr : List Char)
  | and (fs : List QF)
  | or (fs : List QF)
  | not (f : QF)

/-- ASCII-lowercased word, for case-insensitive keywords. -/
def lowerChars (w : List Char) : List Char := w.map Char.toLower

/-- The reserved words of the fragment: keywords and function names;
as plain words they are printed quoted. -/
def reservedWords : List (List Char) :=
  ["and", "or", "not", "exact", "i", "in", "ipv4_range", "len_range", "range", "re",
    "seq", "string_range"].map String.data

/-- A word must be printed quoted when it is empty, contains a
non-bareword character, or is reserved (case-insensitively). -/
def needQuote (w : List Char) : Bool :=
  w.isEmpty || !w.all isWordChar || reservedWords.contains (lowerChars w)

/-- Canonical rendering of a word: quoted only when needed. -/
def quoteIfNeeded (w : List Char) : List Char :=
  if needQuote w then '"' :: (w ++ ['"']) else w

/-- The token a printed word lexes to. -/
def wordTok (w : List Char) : Tok := .word w (needQuote w)

mutual

/-- Canonical print, OR level (the top level). -/
def prOr : QF → List Char
  | .or fs => prOrList fs
  | .and fs => prAndList fs
  | .not f => prNot' (.not f)
  | .phrase f p => prNot' (.phrase f p)

/-- OR operands joined by `" or "`. -/
def prOrList : List QF → List Char
  | [] => []
  | [q] => prAnd' q
  | q :: rest => prAnd' q ++ (' ' :: 'o' :: 'r' :: ' ' :: prOrList rest)

/-- Canonical print, AND level: AND lists print bare, everything lower
delegates. -/
def prAnd' : QF → List Char
  | .and fs => prAndList fs
  | .or fs => prNot' (.or fs)
  | .not f => prNot' (.not f)
  | .phrase f p => prNot' (.phrase f p)

/-- AND operands joined by a space. -/
def prAndList : List QF → List Char
  | [] => []
  | [q] => prNot' q
  | q :: rest => prNot' q ++ (' ' :: prAndList rest)

/-- Canonical print, NOT/atom level: AND/OR get parentheses, `!` prefixes
a negation, a phrase is `field:phrase` with canonical quoting. -/
def prNot' : QF → List Char
  | .not (.and fs) => '!' :: '(' :: (prAndList fs ++ [')'])
  | .not (.or fs) => '!' :: '(' :: (prOrList fs ++ [')'])
  | .not (.not f) => '!' :: prNot' (.not f)
  | .not (.phrase f p) => '!' :: prNot' (.phrase f p)
  | .and fs => '(' :: (prAndList fs ++ [')'])
  | .or fs => '(' :: (prOrList fs ++ [')'])
  | .phrase f p =>
    (if f.isEmpty then [] else quoteIfNeeded f ++ [':']) ++ quoteIfNeeded p

end

mutual

/-- Token stream of the canonical print, OR level. -/
def tkOr : QF → List Tok
  | .or fs => tkOrList fs
  | .and fs => tkAndList fs
  | .not f => tkNot' (.not f)
  | .phrase f p => tkNot' (.phrase f p)

/-- Token stream of an OR list (`or` separators). -/
def tkOrList : List QF → List Tok
  | [] => []
  | [q] => tkAnd' q
  | q :: rest => tkAnd' q ++ (.word ['o', 'r'] false :: tkOrList rest)

/-- Token stream, AND level. -/
def tkAnd' : QF → List Tok
  | .and fs => tkAndList fs
  | .or fs => tkNot' (.or fs)
  | .not f => tkNot' (.not f)
  | .phrase f p => tkNot' (.phrase f p)

/-- Token stream of an AND list (juxtaposition). -/
def tkAndList : List QF → List Tok
  | [] => []
  | [q] => tkNot' q
  | q :: rest => tkNot' q ++ tkAndList rest

/-- Token stream, NOT/atom level. -/
def tkNot' : QF → List Tok
  | .not (.and fs) => .bang :: .lparen :: (tkAndList fs ++ [.rparen])
  | .not (.or fs) => .bang :: .lparen :: (tkOrList fs ++ [.rparen])
  | .not (.not f) => .bang :: tkNot' (.not f)
  | .not (.phrase f p) => .bang :: tkNot' (.phrase f p)
  | .and fs => .lparen :: (tkAndList fs ++ [.rparen])
  | .or fs => .lparen :: (tkOrList fs ++ [.rparen])
  | .phrase f p =>
    (if f.isEmpty then [] else [wordTok f, .colon]) ++ [wordTok p]

end

/-- Does an (unquoted) word token spell the given keyword,
case-insensitively? -/
def isKwTok (t : Tok) (kw : List Char) : Bool :=
  match t with
  | .word w false => lowerChars w == kw
  | _ => false

/-- The `_msg` alias: an explicit `_msg` field is the default field. -/
def normField (w : List Char) : List Char :=
  if w = "_msg".data then [] else w

/-- Collapse a parsed conjunct list (a single conjunct stays bare). -/
def mkAnd : List QF → QF
  | [q] => q
  | fs => .and fs

/-- Collapse a parsed disjunct list. -/
def mkOr : List QF → QF
  | [q] => q
  | fs => .or fs

/-- Append a conjunct, flattening a nested AND (parenthesised groups). -/
def appendConj (acc : List QF) : QF → List QF
  | .and gs => acc ++ gs
  | q => acc ++ [q]

/-- Append a disjunct, flattening a nested OR. -/
def appendDisj (acc : List QF) : QF → List QF
  | .or gs => acc ++ gs
  | q => acc ++ [q]

/-- Double-negation elimination at parse time. -/
def elimNot : QF → QF
  | .not g => g
  | q => .not q


/-- One pass of the lexer with explicit fuel (each token or blank costs
one unit and consumes at least one character, so `length + 1` units
suffice); structural recursion on the fuel keeps the lexer computable by
the kernel. -/
def lexRun : Nat → List Char → Option (List Tok)
  | 0, _ => none
  | _ + 1, [] => some []
  | fuel + 1, c :: cs =>
    if c = ' ' then lexRun fuel cs
    else if c = '(' then (lexRun fuel cs).map (.lparen :: ·)
    else if c = ')' then (lexRun fuel cs).map (.rparen :: ·)
    else if c = ':' then (lexRun fuel cs).map (.colon :: ·)
    else if c = '!' then (lexRun fuel cs).map (.bang :: ·)
    else if c = '"' then
      match lexQuoted cs with
      | none => none
      | some (w, rest) => (lexRun fuel rest).map (.word w true :: ·)
    else if isWordChar c then
      (lexRun fuel (takeWordChars cs).2).map (.word (c :: (takeWordChars cs).1) false :: ·)
    else none

/-- The lexer (spec §4.1): whitespace separates tokens; `(`, `)`, `:`
and `!` are single-character tokens; `"`-quoted strings; barewords. -/
def lexQ (s : List Char) : Option (List Tok) := lexRun (s.length + 1) s

/-- Parser modes: atom, NOT level, AND level (start / continuation with
the parsed conjuncts), OR level (start / continuation). -/
inductive PMode
  | atom
  | nt
  | andS
  | andC (acc : List QF)
  | orS
  | orC (acc : List QF)

/-- The recursive-descent parser (spec §4.2), with explicit precedence
OR < AND < NOT < atom, implicit AND between juxtaposed atoms,
case-insensitive `and`/`or`/`not` keywords, double-negation elimination
and flattening of nested AND/OR lists.  One function over an explicit
mode, consuming one unit of fuel per step, so that the parser stays
computable by the kernel; `pOr` below is the OR-level entry point. -/
def pRun : Nat → PMode → List Tok → Option (QF × List Tok)
  | 0, _, _ => none
  | fuel + 1, .atom, ts =>
    match ts with
    | .lparen :: rest =>
      match pRun fuel .orS rest with
      | some (q, .rparen :: rest') => some (q, rest')
      | _ => none
    | .colon :: .word p _ :: rest => some (.phrase [] p, rest)
    | .word w _ :: .colon :: .word p _ :: rest => some (.phrase (normField w) p, rest)
    | .word w _ :: rest => some (.phrase [] w, rest)
    | _ => none
  | fuel + 1, .nt, ts =>
    match ts with
    | .bang :: rest =>
      match pRun fuel .nt rest with
      | some (q, rest') => some (elimNot q, rest')
      | none => none
    | t :: rest =>
      if isKwTok t ("not".data) then
        match pRun fuel .nt rest with
        | some (q, rest') => some (elimNot q, rest')
        | none => none
      else pRun fuel .atom ts
    | [] => none
  | fuel + 1, .andS, ts =>
    match pRun fuel .nt ts with
    | none => none
    | some (q, rest) => pRun fuel (.andC (appendConj [] q)) rest
  | fuel + 1, .andC acc, ts =>
    match ts with
    | [] => some (mkAnd acc, [])
    | .rparen :: _ => some (mkAnd acc, ts)
    | t :: rest =>
      if isKwTok t ("or".data) then some (mkAnd acc, ts)
      else
        match pRun fuel .nt (if isKwTok t ("and".data) then rest else ts) with
        | none => none
        | some (q, rest') => pRun fuel (.andC (appendConj acc q)) rest'
  | fuel + 1, .orS, ts =>
    match pRun fuel .andS ts with
    | none => none
    | some (q, rest) => pRun fuel (.orC (appendDisj [] q)) rest
  | fuel + 1, .orC acc, ts =>
    match ts with
    | t :: rest =>
      if isKwTok t ("or".data) then
        match pRun fuel .andS rest with
        | none => none
        | some (q, rest') => pRun fuel (.orC (appendDisj acc q)) rest'
      else some (mkOr acc, ts)
    | [] => some (mkOr acc, [])

/-- The OR-level parser entry point. -/
def pOr (fuel : Nat) (ts : List Tok) : Option (QF × List Tok) := pRun fuel .orS ts

/-- `ParseQuery` on the fragment: lex, parse a full OR expression,
require full token consumption.  Eight fuel units per token suffice for
the canonical forms; the budget is per-step, not per-token. -/
def parseQuery (s : List Char) : Option QF :=
  match lexQ s with
  | none => none
  | some ts =>
    match pOr (8 * ts.length + 8) ts with
    | some (q, []) => some q
    | _ => none

/-- Words that can appear in tokens: no quote, no backslash. -/
def okWord (w : List Char) : Prop := '"' ∉ w ∧ '\\' ∉ w

/-- Canonical ASTs: the exact image of the parser — flattened AND/OR
lists of length ≥ 2, no double negation, printable words, and the `_msg`
field normalised away. -/
inductive Canon : QF → Prop
  | phrase {f p : List Char} : okWord f → okWord p → f ≠ "_msg".data →
      Canon (.phrase f p)
  | and {fs : List QF} : 2 ≤ fs.length → (∀ g ∈ fs, Canon g) →
      (∀ g ∈ fs, ∀ hs, g ≠ QF.and hs) → Canon (.and fs)
  | or {fs : List QF} : 2 ≤ fs.length → (∀ g ∈ fs, Canon g) →
      (∀ g ∈ fs, ∀ hs, g ≠ QF.or hs) → Canon (.or fs)
  | not {f : QF} : Canon f → (∀ g, f ≠ QF.not g) → Canon (.not f)

/-- Every word token of the stream is printable. -/
def tokensOk (ts : List Tok) : Prop := ∀ w b, Tok.word w b ∈ ts → okWord w

theorem tokensOk_tail {t : Tok} {ts : List Tok} (h : tokensOk (t :: ts)) : tokensOk ts :=
  fun w b hm => h w b (List.mem_cons_of_mem t hm)

/-- `lexQ`-style success at every sufficient fuel. -/
def LexOK (s : List Char) (ts : List Tok) : Prop :=
  ∀ fuel, s.length + 1 ≤ fuel → lexRun fuel s = some ts

theorem lexOK_nil : LexOK [] [] := by
  intro fuel hf
  match fuel, hf with
  | f + 1, _ => rfl

theorem lexOK_space {s : List Char} {ts : List Tok} (h : LexOK s ts) :
    LexOK (' ' :: s) ts := by
  intro fuel hf
  match fuel, hf with
  | f + 1, hf =>
    show lexRun (f + 1) (' ' :: s) = some ts
    simp [lexRun, h f (by simpa using hf)]

theorem lexOK_lparen {s : List Char} {ts : List Tok} (h : LexOK s ts) :
    LexOK ('(' :: s) (.lparen :: ts) := by
  intro fuel hf
  match fuel, hf with
  | f + 1, hf =>
    show lexRun (f + 1) ('(' :: s) = some (.lparen :: ts)
    simp [lexRun, h f (by simpa using hf)]

theorem lexOK_rparen {s : List Char} {ts : List Tok} (h : LexOK s ts) :
    LexOK (')' :: s) (.rparen :: ts) := by
  intro fuel hf
  match fuel, hf with
  | f + 1, hf =>
    show lexRun (f + 1) (')' :: s) = some (.rparen :: ts)
    simp [lexRun, h f (by simpa using hf)]

theorem lexOK_colon {s : List Char} {ts : List Tok} (h : LexOK s ts) :
    LexOK (':' :: s) (.colon :: ts) := by
  intro fuel hf
  match fuel, hf with
  | f + 1, hf =>
    show lexRun (f + 1) (':' :: s) = some (.colon :: ts)
    simp [lexRun, h f (by simpa using hf)]

theorem lexOK_bang {s : List Char} {ts : List Tok} (h : LexOK s ts) :
    LexOK ('!' :: s) (.bang :: ts) := by
  intro fuel hf
  match fuel, hf with
  | f + 1, hf =>
    show lexRun (f + 1) ('!' :: s) = some (.bang :: ts)
    simp [lexRun, h f (by simpa using hf)]

/-- The next character (if any) does not extend a bareword. -/
def noWordStart : List Char → Prop
  | [] => True
  | c :: _ => isWordChar c = false

theorem noWordStart_nil : noWordStart [] := trivial

theorem noWordStart_cons {c : Char} {s : List Char} (h : isWordChar c = false) :
    noWordStart (c :: s) := h

theorem wordChar_spec {c : Char} (h : isWordChar c = true) :
    c ≠ ' ' ∧ c ≠ '(' ∧ c ≠ ')' ∧ c ≠ ':' ∧ c ≠ '!' ∧ c ≠ '"' ∧ c ≠ '\\' := by
  refine ⟨?_, ?_, ?_, ?_, ?_, ?_, ?_⟩ <;> (rintro rfl; revert h; decide)

theorem takeWordChars_append {w rest : List Char} (hall : w.all isWordChar = true)
    (hr : noWordStart rest) : takeWordChars (w ++ rest) = (w, rest) := by
  induction w with
  | nil =>
    simp only [List.nil_append]
    cases rest with
    | nil => rfl
    | cons c r =>
      have hc : isWordChar c = false := hr
      simp [takeWordChars, hc]
  | cons c cs ih =>
    simp only [List.all_cons, Bool.and_eq_true] at hall
    simp [takeWordChars, hall.1, ih hall.2]

theorem lexQuoted_append {w rest : List Char} (hw : okWord w) :
    lexQuoted (w ++ '"' :: rest) = some (w, rest) := by
  induction w with
  | nil => simp [lexQuoted]
  | cons c cs ih =>
    obtain ⟨hq, hb⟩ := hw
    simp only [List.mem_cons, not_or] at hq hb
    have ih' := ih ⟨hq.2, hb.2⟩
    simp [lexQuoted, Ne.symm hq.1, Ne.symm hb.1, ih']

theorem lexOK_word {w s : List Char} {ts : List Tok} (hne : w ≠ [])
    (hall : w.all isWordChar = true) (hs : noWordStart s) (h : LexOK s ts) :
    LexOK (w ++ s) (.word w false :: ts) := by
  obtain ⟨c, cs, rfl⟩ : ∃ c cs, w = c :: cs := by
    cases w with
    | nil => exact absurd rfl hne
    | cons c cs => exact ⟨c, cs, rfl⟩
  intro fuel hf
  match fuel, hf with
  | f + 1, hf =>
    simp only [List.all_cons, Bool.and_eq_true] at hall
    obtain ⟨h1, h2, h3, h4, h5, h6, _⟩ := wordChar_spec hall.1
    show lexRun (f + 1) (c :: (cs ++ s)) = some (.word (c :: cs) false :: ts)
    have hfle : s.length + 1 ≤ f := by
      simp only [List.length_cons, List.length_append] at hf; omega
    simp only [lexRun, if_neg h1, if_neg h2, if_neg h3, if_neg h4, if_neg h5, if_neg h6,
      if_pos hall.1, takeWordChars_append hall.2 hs, h f hfle]
    rfl

theorem lexOK_quoted {w s : List Char} {ts : List Tok} (hw : okWord w) (h : LexOK s ts) :
    LexOK ('"' :: (w ++ '"' :: s)) (.word w true :: ts) := by
  intro fuel hf
  match fuel, hf with
  | f + 1, hf =>
    show lexRun (f + 1) ('"' :: (w ++ '"' :: s)) = some (.word w true :: ts)
    have hfle : s.length + 1 ≤ f := by
      simp only [List.length_cons, List.length_append] at hf; omega
    simp [lexRun, lexQuoted_append hw, h f hfle]

theorem lexOK_quoteIfNeeded {w s : List Char} {ts : List Tok} (hw : okWord w)
    (hs : noWordStart s) (h : LexOK s ts) :
    LexOK (quoteIfNeeded w ++ s) (wordTok w :: ts) := by
  unfold quoteIfNeeded wordTok
  by_cases hq : needQuote w = true
  · rw [hq, if_pos rfl]
    have : ('"' :: (w ++ ['"'])) ++ s = '"' :: (w ++ '"' :: s) := by simp
    rw [this]
    exact lexOK_quoted hw h
  · rw [Bool.not_eq_true] at hq
    rw [hq]
    simp only [Bool.false_eq_true, if_false]
    have h2 := hq
    simp only [needQuote, Bool.or_eq_false_iff, Bool.not_eq_false'] at h2
    have hne : w ≠ [] := by
      intro hnil
      subst hnil
      exact absurd h2.1.1 (by simp)
    exact lexOK_word hne h2.1.2 hs h

theorem andList_lex {fs : List QF}
    (hmem : ∀ g ∈ fs, ∀ s ts, LexOK s ts → noWordStart s →
      LexOK (prNot' g ++ s) (tkNot' g ++ ts)) :
    ∀ s ts, LexOK s ts → noWordStart s →
      LexOK (prAndList fs ++ s) (tkAndList fs ++ ts) := by
  induction fs with
  | nil => intro s ts h _; simpa [prAndList, tkAndList] using h
  | cons q rest ih =>
    intro s ts h hs
    cases rest with
    | nil => simpa [prAndList, tkAndList] using hmem q (by simp) s ts h hs
    | cons r rs =>
      have hrest := ih (fun g hg => hmem g (List.mem_cons_of_mem _ hg)) s ts h hs
      have hsp : LexOK (' ' :: (prAndList (r :: rs) ++ s)) (tkAndList (r :: rs) ++ ts) :=
        lexOK_space hrest
      have h1 := hmem q (by simp) _ _ hsp (noWordStart_cons (by decide))
      show LexOK (prAndList (q :: r :: rs) ++ s) (tkAndList (q :: r :: rs) ++ ts)
      simpa [prAndList, tkAndList] using h1

theorem orList_lex {fs : List QF}
    (hmem : ∀ g ∈ fs, ∀ s ts, LexOK s ts → noWordStart s →
      LexOK (prAnd' g ++ s) (tkAnd' g ++ ts)) :
    ∀ s ts, LexOK s ts → noWordStart s →
      LexOK (prOrList fs ++ s) (tkOrList fs ++ ts) := by
  induction fs with
  | nil => intro s ts h _; simpa [prOrList, tkOrList] using h
  | cons q rest ih =>
    intro s ts h hs
    cases rest with
    | nil => simpa [prOrList, tkOrList] using hmem q (by simp) s ts h hs
    | cons r rs =>
      have hrest := ih (fun g hg => hmem g (List.mem_cons_of_mem _ hg)) s ts h hs
      have hsp := lexOK_space hrest
      have hor : LexOK ('o' :: 'r' :: ' ' :: (prOrList (r :: rs) ++ s))
          (.word ['o', 'r'] false :: (tkOrList (r :: rs) ++ ts)) := by
        have hw := lexOK_word (w := ['o', 'r']) (by simp) (by decide)
          (noWordStart_cons (by decide)) hsp
        simpa using hw
      have hsp2 := lexOK_space hor
      have h1 := hmem q (by simp) _ _ hsp2 (noWordStart_cons (by decide))
      show LexOK (prOrList (q :: r :: rs) ++ s) (tkOrList (q :: r :: rs) ++ ts)
      simpa [prOrList, tkOrList] using h1

theorem prNot'_negation {g : QF} (h : ∀ g', g ≠ QF.not g') :
    prNot' (.not g) = '!' :: prNot' g := by
  cases g with
  | not g' => exact absurd rfl (h g')
  | phrase f p => simp [prNot']
  | and fs => simp [prNot']
  | or fs => simp [prNot']

theorem tkNot'_negation {g : QF} (h : ∀ g', g ≠ QF.not g') :
    tkNot' (.not g) = .bang :: tkNot' g := by
  cases g with
  | not g' => exact absurd rfl (h g')
  | phrase f p => simp [tkNot']
  | and fs => simp [tkNot']
  | or fs => simp [tkNot']

theorem printLexAll : ∀ n : Nat, ∀ q : QF, sizeOf q ≤ n → Canon q →
    (∀ s ts, LexOK s ts → noWordStart s → LexOK (prNot' q ++ s) (tkNot' q ++ ts)) ∧
    (∀ s ts, LexOK s ts → noWordStart s → LexOK (prAnd' q ++ s) (tkAnd' q ++ ts)) ∧
    (∀ s ts, LexOK s ts → noWordStart s → LexOK (prOr q ++ s) (tkOr q ++ ts)) := by
  intro n
  induction n with
  | zero =>
    intro q hq _
    exact absurd hq (by cases q <;> simp_arith)
  | succ n ih =>
    intro q hq hc
    cases hc with
    | phrase hf hp hne =>
      rename_i f p
      have hnot : ∀ s ts, LexOK s ts → noWordStart s →
          LexOK (prNot' (.phrase f p) ++ s) (tkNot' (.phrase f p) ++ ts) := by
        intro s ts h hs
        simp only [prNot', tkNot']
        by_cases hfe : f.isEmpty
        · rw [if_pos hfe, if_pos hfe]
          simpa using lexOK_quoteIfNeeded hp hs h
        · rw [if_neg hfe, if_neg hfe]
          have h1 := lexOK_quoteIfNeeded hp hs h
          have h2 := lexOK_colon h1
          have h3 := lexOK_quoteIfNeeded hf (noWordStart_cons (by decide)) h2
          simpa using h3
      refine ⟨hnot, ?_, ?_⟩
      · intro s ts h hs
        simp only [prAnd', tkAnd']
        exact hnot s ts h hs
      · intro s ts h hs
        simp only [prOr, tkOr]
        exact hnot s ts h hs
    | and hlen hmem hnand =>
      rename_i fs
      have hm : ∀ g ∈ fs, ∀ s ts, LexOK s ts → noWordStart s →
          LexOK (prNot' g ++ s) (tkNot' g ++ ts) := by
        intro g hg
        have h1 := List.sizeOf_lt_of_mem hg
        have h2 : sizeOf (QF.and fs) = 1 + sizeOf fs := by simp
        exact (ih g (by omega) (hmem g hg)).1
      have hand := andList_lex hm
      have hnot : ∀ s ts, LexOK s ts → noWordStart s →
          LexOK (prNot' (.and fs) ++ s) (tkNot' (.and fs) ++ ts) := by
        intro s ts h _
        have h1 := lexOK_rparen h
        have h2 := hand _ _ h1 (noWordStart_cons (by decide))
        have h3 := lexOK_lparen h2
        simp only [prNot', tkNot']
        simpa using h3
      refine ⟨hnot, ?_, ?_⟩
      · intro s ts h hs
        simp only [prAnd', tkAnd']
        exact hand s ts h hs
      · intro s ts h hs
        simp only [prOr, tkOr]
        exact hand s ts h hs
    | or hlen hmem hnor =>
      rename_i fs
      have hm : ∀ g ∈ fs, ∀ s ts, LexOK s ts → noWordStart s →
          LexOK (prAnd' g ++ s) (tkAnd' g ++ ts) := by
        intro g hg
        have h1 := List.sizeOf_lt_of_mem hg
        have h2 : sizeOf (QF.or fs) = 1 + sizeOf fs := by simp
        exact (ih g (by omega) (hmem g hg)).2.1
      have hor := orList_lex hm
      have hnot : ∀ s ts, LexOK s ts → noWordStart s →
          LexOK (prNot' (.or fs) ++ s) (tkNot' (.or fs) ++ ts) := by
        intro s ts h _
        have h1 := lexOK_rparen h
        have h2 := hor _ _ h1 (noWordStart_cons (by decide))
        have h3 := lexOK_lparen h2
        simp only [prNot', tkNot']
        simpa using h3
      refine ⟨hnot, ?_, ?_⟩
      · intro s ts h hs
        simp only [prAnd', tkAnd']
        exact hnot s ts h hs
      · intro s ts h hs
        simp only [prOr, tkOr]
        exact hor s ts h hs
    | not hcf hnn =>
      rename_i g
      have h2 : sizeOf (QF.not g) = 1 + sizeOf g := by simp
      have ihg := ih g (by omega) hcf
      have hnot : ∀ s ts, LexOK s ts → noWordStart s →
          LexOK (prNot' (.not g) ++ s) (tkNot' (.not g) ++ ts) := by
        intro s ts h hs
        have h1 := ihg.1 s ts h hs
        rw [prNot'_negation hnn, tkNot'_negation hnn]
        simpa using lexOK_bang h1
      refine ⟨hnot, ?_, ?_⟩
      · intro s ts h hs
        simp only [prAnd', tkAnd']
        exact hnot s ts h hs
      · intro s ts h hs
        simp only [prOr, tkOr]
        exact hnot s ts h hs

theorem lexQ_print {q : QF} (hc : Canon q) : lexQ (prOr q) = some (tkOr q) := by
  have h := (printLexAll (sizeOf q) q le_rfl hc).2.2 [] [] lexOK_nil trivial
  simp only [List.append_nil] at h
  exact h _ le_rfl

/-- Token lists on which the OR level stops: end of input or `)`. -/
def orStop : List Tok → Prop
  | [] => True
  | .rparen :: _ => True
  | _ => False

/-- Token lists on which the AND level stops: OR stops plus an `or`
keyword. -/
def andStop : List Tok → Prop
  | [] => True
  | .rparen :: _ => True
  | .word w false :: _ => lowerChars w = "or".data
  | _ => False

/-- Token lists not starting with `:` (so a preceding bare phrase is not
re-read as a fielded one). -/
def noColonStart : List Tok → Prop
  | .colon :: _ => False
  | _ => True

/-- The token stream of the tail of an OR list: each further disjunct is
preceded by the `or` keyword. -/
def tkOrTail : List QF → List Tok
  | [] => []
  | g :: gs => .word ['o', 'r'] false :: (tkAnd' g ++ tkOrTail gs)

theorem orStop_nil : orStop [] := trivial

theorem orStop_andStop {rest : List Tok} (h : orStop rest) : andStop rest := by
  cases rest with
  | nil => trivial
  | cons t r =>
    cases t with
    | rparen => trivial
    | lparen => exact False.elim h
    | colon => exact False.elim h
    | bang => exact False.elim h
    | word w b => exact False.elim h

theorem andStop_noColon {rest : List Tok} (h : andStop rest) : noColonStart rest := by
  cases rest with
  | nil => trivial
  | cons t r =>
    cases t with
    | rparen => trivial
    | lparen => trivial
    | colon => exact False.elim h
    | bang => trivial
    | word w b => trivial

theorem tkAndList_cons (q : QF) (rest : List QF) :
    tkAndList (q :: rest) = tkNot' q ++ tkAndList rest := by
  cases rest with
  | nil => simp [tkAndList]
  | cons r rs => simp [tkAndList]

theorem tkOrList_eq : ∀ (q : QF) (rest : List QF),
    tkOrList (q :: rest) = tkAnd' q ++ tkOrTail rest := by
  intro q rest
  induction rest generalizing q with
  | nil => simp [tkOrList, tkOrTail]
  | cons r rs ih => simp [tkOrList, tkOrTail, ih r]

theorem isKw_wordTok {w kw : List Char} (hkw : reservedWords.contains kw = true) :
    isKwTok (wordTok w) kw = false := by
  unfold wordTok isKwTok
  by_cases hq : needQuote w = true
  · rw [hq]
  · rw [Bool.not_eq_true] at hq
    rw [hq]
    simp only [needQuote, Bool.or_eq_false_iff] at hq
    rw [beq_eq_false_iff_ne]
    intro heq
    rw [heq] at hq
    rw [hq.2] at hkw
    exact Bool.false_ne_true hkw

/-- Tokens that can start a printed atom: `!`, `(`, or a word whose
canonical form is never a bare keyword. -/
def freshTok (t : Tok) : Prop :=
  (t = .bang ∨ t = .lparen ∨ ∃ w b, t = .word w b) ∧
    ∀ kw, reservedWords.contains kw = true → isKwTok t kw = false

theorem freshTok_wordTok (w : List Char) : freshTok (wordTok w) :=
  ⟨Or.inr (Or.inr ⟨w, needQuote w, rfl⟩), fun _ hkw => isKw_wordTok hkw⟩

theorem freshTok_bang : freshTok .bang := ⟨Or.inl rfl, fun _ _ => rfl⟩

theorem freshTok_lparen : freshTok .lparen := ⟨Or.inr (Or.inl rfl), fun _ _ => rfl⟩

theorem tkNot'_head (q : QF) : ∃ t r, tkNot' q = t :: r ∧ freshTok t := by
  cases q with
  | phrase f p =>
    by_cases hfe : f.isEmpty
    · refine ⟨wordTok p, [], ?_, freshTok_wordTok p⟩
      simp [tkNot', hfe]
    · refine ⟨wordTok f, [.colon, wordTok p], ?_, freshTok_wordTok f⟩
      simp [tkNot', hfe]
  | and fs => exact ⟨.lparen, tkAndList fs ++ [.rparen], by simp [tkNot'], freshTok_lparen⟩
  | or fs => exact ⟨.lparen, tkOrList fs ++ [.rparen], by simp [tkNot'], freshTok_lparen⟩
  | not g =>
    cases g with
    | phrase f p => exact ⟨.bang, tkNot' (.phrase f p), by simp [tkNot'], freshTok_bang⟩
    | and fs =>
      exact ⟨.bang, .lparen :: (tkAndList fs ++ [.rparen]), by simp [tkNot'], freshTok_bang⟩
    | or fs =>
      exact ⟨.bang, .lparen :: (tkOrList fs ++ [.rparen]), by simp [tkNot'], freshTok_bang⟩
    | not g' => exact ⟨.bang, tkNot' (.not g'), by simp [tkNot'], freshTok_bang⟩

theorem freshTok_noColon {t : Tok} {r : List Tok} (h : freshTok t) :
    noColonStart (t :: r) := by
  rcases h.1 with rfl | rfl | ⟨w, b, rfl⟩ <;> trivial

theorem tkNot'_length (q : QF) : 1 ≤ (tkNot' q).length := by
  obtain ⟨t, r, heq, -⟩ := tkNot'_head q
  simp [heq]

theorem noColon_andList (gs : List QF) {rest : List Tok} (h : andStop rest) :
    noColonStart (tkAndList gs ++ rest) := by
  cases gs with
  | nil =>
    have : tkAndList [] = [] := by simp [tkAndList]
    rw [this, List.nil_append]
    exact andStop_noColon h
  | cons g gs' =>
    rw [tkAndList_cons, List.append_assoc]
    obtain ⟨t, r, heq, hf⟩ := tkNot'_head g
    rw [heq, List.cons_append]
    exact freshTok_noColon hf

theorem andStop_orTail (gs : List QF) {rest : List Tok} (h : orStop rest) :
    andStop (tkOrTail gs ++ rest) := by
  cases gs with
  | nil =>
    have : tkOrTail [] = [] := rfl
    rw [this, List.nil_append]
    exact orStop_andStop h
  | cons g gs' =>
    show andStop (.word ['o', 'r'] false :: _)
    show lowerChars ['o', 'r'] = "or".data
    decide

theorem mkAnd_two {fs : List QF} (h : 2 ≤ fs.length) : mkAnd fs = .and fs := by
  match fs with
  | [] => simp at h
  | [q] => simp at h
  | a :: b :: r => simp [mkAnd]

theorem mkOr_two {fs : List QF} (h : 2 ≤ fs.length) : mkOr fs = .or fs := by
  match fs with
  | [] => simp at h
  | [q] => simp at h
  | a :: b :: r => simp [mkOr]

theorem appendConj_eq {acc : List QF} {g : QF} (h : ∀ hs, g ≠ QF.and hs) :
    appendConj acc g = acc ++ [g] := by
  cases g with
  | and hs => exact absurd rfl (h hs)
  | phrase f p => rfl
  | or fs => rfl
  | not f => rfl

theorem appendDisj_eq {acc : List QF} {g : QF} (h : ∀ hs, g ≠ QF.or hs) :
    appendDisj acc g = acc ++ [g] := by
  cases g with
  | or hs => exact absurd rfl (h hs)
  | phrase f p => rfl
  | and fs => rfl
  | not f => rfl

theorem elimNot_eq {g : QF} (h : ∀ g', g ≠ QF.not g') : elimNot g = .not g := by
  cases g with
  | not g' => exact absurd rfl (h g')
  | phrase f p => rfl
  | and fs => rfl
  | or fs => rfl

theorem pRun_andC_stop {a : Nat} {acc : List QF} {rest : List Tok} (h : andStop rest) :
    pRun (a + 1) (.andC acc) rest = some (mkAnd acc, rest) := by
  cases rest with
  | nil => rfl
  | cons t r =>
    cases t with
    | rparen => rfl
    | lparen => exact False.elim h
    | colon => exact False.elim h
    | bang => exact False.elim h
    | word w b =>
      cases b with
      | true => exact False.elim h
      | false =>
        have hw : lowerChars w = "or".data := h
        show (if isKwTok (Tok.word w false) ("or".data) = true
              then some (mkAnd acc, Tok.word w false :: r)
              else match pRun a .nt
                     (if isKwTok (Tok.word w false) ("and".data) = true
                      then r else Tok.word w false :: r) with
                   | none => none
                   | some (q, rest') => pRun a (.andC (appendConj acc q)) rest') =
          some (mkAnd acc, Tok.word w false :: r)
        rw [if_pos (show isKwTok (Tok.word w false) ("or".data) = true from
          beq_iff_eq.mpr hw)]

theorem pRun_orC_stop {a : Nat} {acc : List QF} {rest : List Tok} (h : orStop rest) :
    pRun (a + 1) (.orC acc) rest = some (mkOr acc, rest) := by
  cases rest with
  | nil => rfl
  | cons t r =>
    cases t with
    | rparen => rfl
    | lparen => exact False.elim h
    | colon => exact False.elim h
    | bang => exact False.elim h
    | word w b => exact False.elim h

theorem pRun_andC_cons {a : Nat} {acc : List QF} {t : Tok} {ts' : List Tok}
    (hor : isKwTok t ("or".data) = false) (hand : isKwTok t ("and".data) = false)
    (hshape : t = .bang ∨ t = .lparen ∨ ∃ w b, t = .word w b) :
    pRun (a + 1) (.andC acc) (t :: ts') =
      (match pRun a .nt (t :: ts') with
       | none => none
       | some (q, rest') => pRun a (.andC (appendConj acc q)) rest') := by
  rcases hshape with rfl | rfl | ⟨w, b, rfl⟩
  · rfl
  · rfl
  · cases b with
    | true => rfl
    | false =>
      show (if isKwTok (Tok.word w false) ("or".data) = true
            then some (mkAnd acc, Tok.word w false :: ts')
            else match pRun a .nt
                   (if isKwTok (Tok.word w false) ("and".data) = true
                    then ts' else Tok.word w false :: ts') with
                 | none => none
                 | some (q, rest') => pRun a (.andC (appendConj acc q)) rest') = _
      rw [if_neg (show ¬(isKwTok (Tok.word w false) ("or".data) = true) from by
          simp [hor]),
        if_neg (show ¬(isKwTok (Tok.word w false) ("and".data) = true) from by
          simp [hand])]

theorem pRun_nt_skip {a : Nat} {t : Tok} {ts' : List Tok}
    (hshape : t = .lparen ∨ ∃ w b, t = .word w b)
    (hkw : isKwTok t ("not".data) = false) :
    pRun (a + 1) .nt (t :: ts') = pRun a .atom (t :: ts') := by
  rcases hshape with rfl | ⟨w, b, rfl⟩
  · rfl
  · cases b with
    | true => rfl
    | false =>
      show (if isKwTok (Tok.word w false) ("not".data) = true
            then match pRun a .nt ts' with
                 | some (q, rest') => some (elimNot q, rest')
                 | none => none
            else pRun a .atom (Tok.word w false :: ts')) =
        pRun a .atom (Tok.word w false :: ts')
      rw [if_neg (show ¬(isKwTok (Tok.word w false) ("not".data) = true) from by
        simp [hkw])]

theorem pRun_atom_word {a : Nat} {w : List Char} {b : Bool} {rest : List Tok}
    (hnc : noColonStart rest) :
    pRun (a + 1) .atom (.word w b :: rest) = some (.phrase [] w, rest) := by
  cases rest with
  | nil => rfl
  | cons t2 r2 =>
    cases t2 with
    | colon => exact False.elim hnc
    | lparen => rfl
    | rparen => rfl
    | bang => rfl
    | word w2 b2 => rfl

theorem pRun_atom_lparen {a : Nat} {Y : List Tok} {q : QF} {rest : List Tok}
    (h : pRun a .orS Y = some (q, .rparen :: rest)) :
    pRun (a + 1) .atom (.lparen :: Y) = some (q, rest) := by
  show (match pRun a .orS Y with
        | some (q, .rparen :: rest') => some (q, rest')
        | _ => none) = some (q, rest)
  rw [h]

theorem pRun_andS_step {a : Nat} {ts : List Tok} {q : QF} {r : List Tok}
    (h : pRun a .nt ts = some (q, r)) :
    pRun (a + 1) .andS ts = pRun a (.andC (appendConj [] q)) r := by
  show (match pRun a .nt ts with
        | none => none
        | some (q, rest) => pRun a (.andC (appendConj [] q)) rest) = _
  rw [h]

theorem pRun_orS_step {a : Nat} {ts : List Tok} {q : QF} {r : List Tok}
    (h : pRun a .andS ts = some (q, r)) :
    pRun (a + 1) .orS ts = pRun a (.orC (appendDisj [] q)) r := by
  show (match pRun a .andS ts with
        | none => none
        | some (q, rest) => pRun a (.orC (appendDisj [] q)) rest) = _
  rw [h]

theorem pRun_orC_or {a : Nat} {acc : List QF} {w : List Char} {ts' : List Tok}
    (hkw : isKwTok (.word w false) ("or".data) = true) :
    pRun (a + 1) (.orC acc) (.word w false :: ts') =
      (match pRun a .andS ts' with
       | none => none
       | some (q, rest') => pRun a (.orC (appendDisj acc q)) rest') := by
  show (if isKwTok (Tok.word w false) ("or".data) = true
        then match pRun a .andS ts' with
             | none => none
             | some (q, rest') => pRun a (.orC (appendDisj acc q)) rest'
        else some (mkOr acc, Tok.word w false :: ts')) = _
  rw [if_pos hkw]

theorem pRun_andC_run : ∀ (fs acc : List QF) (rest : List Tok) (fuel : Nat),
    andStop rest →
    (∀ g ∈ fs, ∀ (r : List Tok) (f : Nat), noColonStart r → 8 * (tkNot' g).length ≤ f →
      pRun f .nt (tkNot' g ++ r) = some (g, r)) →
    (∀ g ∈ fs, ∀ hs, g ≠ QF.and hs) →
    8 * (tkAndList fs).length + 1 ≤ fuel →
    pRun fuel (.andC acc) (tkAndList fs ++ rest) = some (mkAnd (acc ++ fs), rest) := by
  intro fs
  induction fs with
  | nil =>
    intro acc rest fuel hstop _ _ hfuel
    obtain ⟨a, rfl⟩ : ∃ a, fuel = a + 1 := ⟨fuel - 1, by omega⟩
    have hnil : tkAndList ([] : List QF) = [] := by simp [tkAndList]
    rw [hnil, List.nil_append, List.append_nil]
    exact pRun_andC_stop hstop
  | cons g gs ih =>
    intro acc rest fuel hstop hnt hnand hfuel
    have hlen1 := tkNot'_length g
    rw [tkAndList_cons, List.length_append] at hfuel
    obtain ⟨a, rfl⟩ : ∃ a, fuel = a + 1 := ⟨fuel - 1, by omega⟩
    rw [tkAndList_cons, List.append_assoc]
    obtain ⟨t, tr, heq, hf⟩ := tkNot'_head g
    have hor := hf.2 ("or".data) (by decide)
    have hand := hf.2 ("and".data) (by decide)
    rw [heq, List.cons_append, pRun_andC_cons hor hand hf.1]
    have hntg : pRun a .nt (tkNot' g ++ (tkAndList gs ++ rest)) =
        some (g, tkAndList gs ++ rest) :=
      hnt g (by simp) _ _ (noColon_andList gs hstop) (by omega)
    rw [heq, List.cons_append] at hntg
    rw [hntg]
    show pRun a (.andC (appendConj acc g)) (tkAndList gs ++ rest) = _
    rw [appendConj_eq (hnand g (by simp)),
      ih (acc ++ [g]) rest a hstop (fun x hx => hnt x (by simp [hx]))
        (fun x hx => hnand x (by simp [hx])) (by omega),
      List.append_assoc, List.singleton_append]

theorem pRun_orC_run : ∀ (fs acc : List QF) (rest : List Tok) (fuel : Nat),
    orStop rest →
    (∀ g ∈ fs, ∀ (tail : List Tok) (f : Nat), andStop tail →
      8 * (tkAnd' g).length + 2 ≤ f → pRun f .andS (tkAnd' g ++ tail) = some (g, tail)) →
    (∀ g ∈ fs, ∀ hs, g ≠ QF.or hs) →
    8 * (tkOrTail fs).length + 1 ≤ fuel →
    pRun fuel (.orC acc) (tkOrTail fs ++ rest) = some (mkOr (acc ++ fs), rest) := by
  intro fs
  induction fs with
  | nil =>
    intro acc rest fuel hstop _ _ hfuel
    obtain ⟨a, rfl⟩ : ∃ a, fuel = a + 1 := ⟨fuel - 1, by omega⟩
    rw [show tkOrTail [] = [] from rfl, List.nil_append, List.append_nil]
    exact pRun_orC_stop hstop
  | cons g gs ih =>
    intro acc rest fuel hstop hand hnor hfuel
    rw [show tkOrTail (g :: gs) = .word ['o', 'r'] false :: (tkAnd' g ++ tkOrTail gs) from rfl,
      List.length_cons, List.length_append] at hfuel
    obtain ⟨a, rfl⟩ : ∃ a, fuel = a + 1 := ⟨fuel - 1, by omega⟩
    rw [show tkOrTail (g :: gs) = .word ['o', 'r'] false :: (tkAnd' g ++ tkOrTail gs) from rfl,
      List.cons_append, pRun_orC_or (by decide), List.append_assoc]
    have h1 : pRun a .andS (tkAnd' g ++ (tkOrTail gs ++ rest)) =
        some (g, tkOrTail gs ++ rest) :=
      hand g (by simp) _ _ (andStop_orTail gs hstop) (by omega)
    rw [h1]
    show pRun a (.orC (appendDisj acc g)) (tkOrTail gs ++ rest) = _
    rw [appendDisj_eq (hnor g (by simp)),
      ih (acc ++ [g]) rest a hstop (fun x hx => hand x (by simp [hx]))
        (fun x hx => hnor x (by simp [hx])) (by omega),
      List.append_assoc, List.singleton_append]

theorem andSq_of_nt {q : QF} (hnotand : ∀ hs, q ≠ QF.and hs)
    (heq : tkAnd' q = tkNot' q)
    (hnt : ∀ (rest : List Tok) (fuel : Nat), noColonStart rest →
      8 * (tkNot' q).length ≤ fuel → pRun fuel .nt (tkNot' q ++ rest) = some (q, rest)) :
    ∀ (tail : List Tok) (fuel : Nat), andStop tail → 8 * (tkAnd' q).length + 2 ≤ fuel →
      pRun fuel .andS (tkAnd' q ++ tail) = some (q, tail) := by
  intro tail fuel hstop hfuel
  obtain ⟨a, rfl⟩ : ∃ a, fuel = a + 1 := ⟨fuel - 1, by omega⟩
  rw [heq] at hfuel ⊢
  have h1 : pRun a .nt (tkNot' q ++ tail) = some (q, tail) :=
    hnt tail a (andStop_noColon hstop) (by omega)
  rw [pRun_andS_step h1, appendConj_eq hnotand, List.nil_append]
  have h2 := pRun_andC_run [] [q] tail a hstop (by simp) (by simp)
    (by simp only [tkAndList, List.length_nil]; omega)
  simpa [tkAndList, mkAnd] using h2

theorem orS_of_andSq {q : QF} (hnotor : ∀ hs, q ≠ QF.or hs)
    (heq : tkOr q = tkAnd' q)
    (hand : ∀ (tail : List Tok) (fuel : Nat), andStop tail →
      8 * (tkAnd' q).length + 2 ≤ fuel → pRun fuel .andS (tkAnd' q ++ tail) = some (q, tail)) :
    ∀ (rest : List Tok) (fuel : Nat), orStop rest → 8 * (tkOr q).length + 4 ≤ fuel →
      pRun fuel .orS (tkOr q ++ rest) = some (q, rest) := by
  intro rest fuel hstop hfuel
  obtain ⟨a, rfl⟩ : ∃ a, fuel = a + 1 := ⟨fuel - 1, by omega⟩
  rw [heq] at hfuel ⊢
  have h1 : pRun a .andS (tkAnd' q ++ rest) = some (q, rest) :=
    hand rest a (orStop_andStop hstop) (by omega)
  rw [pRun_orS_step h1, appendDisj_eq hnotor, List.nil_append]
  have h2 := pRun_orC_run [] [q] rest a hstop (by simp) (by simp)
    (by rw [show tkOrTail ([] : List QF) = [] from rfl]; simp only [List.length_nil]; omega)
  simpa [mkOr] using h2

theorem parseAll : ∀ n : Nat, ∀ q : QF, sizeOf q ≤ n → Canon q →
    (∀ (rest : List Tok) (fuel : Nat), noColonStart rest → 8 * (tkNot' q).length ≤ fuel →
      pRun fuel .nt (tkNot' q ++ rest) = some (q, rest)) ∧
    (∀ (tail : List Tok) (fuel : Nat), andStop tail → 8 * (tkAnd' q).length + 2 ≤ fuel →
      pRun fuel .andS (tkAnd' q ++ tail) = some (q, tail)) ∧
    (∀ (rest : List Tok) (fuel : Nat), orStop rest → 8 * (tkOr q).length + 4 ≤ fuel →
      pRun fuel .orS (tkOr q ++ rest) = some (q, rest)) := by
  intro n
  induction n with
  | zero =>
    intro q hq _
    exact absurd hq (by cases q <;> simp_arith)
  | succ n ih =>
    intro q hq hc
    cases hc with
    | phrase hf hp hne =>
      rename_i f p
      have hnt : ∀ (rest : List Tok) (fuel : Nat), noColonStart rest →
          8 * (tkNot' (QF.phrase f p)).length ≤ fuel →
          pRun fuel .nt (tkNot' (QF.phrase f p) ++ rest) = some (QF.phrase f p, rest) := by
        intro rest fuel hnc hfuel
        have hlen := tkNot'_length (QF.phrase f p)
        obtain ⟨a, rfl⟩ : ∃ a, fuel = a + 1 + 1 := ⟨fuel - 2, by omega⟩
        by_cases hfe : f.isEmpty
        · have hfnil : f = [] := by
            cases f with
            | nil => rfl
            | cons c cs => simp at hfe
          subst hfnil
          rw [show tkNot' (QF.phrase [] p) = [wordTok p] from by simp [tkNot']]
          simp only [wordTok]
          rw [List.singleton_append,
            pRun_nt_skip (Or.inr ⟨p, needQuote p, rfl⟩) (isKw_wordTok (by decide)),
            pRun_atom_word hnc]
        · rw [show tkNot' (QF.phrase f p) = [wordTok f, .colon, wordTok p] from by
              simp [tkNot', hfe]]
          simp only [wordTok]
          rw [show ([Tok.word f (needQuote f), Tok.colon, Tok.word p (needQuote p)] :
                List Tok) ++ rest =
              Tok.word f (needQuote f) :: Tok.colon :: Tok.word p (needQuote p) :: rest
              from rfl,
            pRun_nt_skip (Or.inr ⟨f, needQuote f, rfl⟩) (isKw_wordTok (by decide)),
            show pRun (a + 1) .atom (Tok.word f (needQuote f) :: Tok.colon ::
                Tok.word p (needQuote p) :: rest) =
              some (.phrase (normField f) p, rest) from rfl,
            show normField f = f from by simp [normField, hne]]
      have handS := andSq_of_nt (fun hs h => QF.noConfusion h) (by simp [tkAnd']) hnt
      have horS := orS_of_andSq (fun hs h => QF.noConfusion h) (by simp [tkOr, tkAnd']) handS
      exact ⟨hnt, handS, horS⟩
    | not hcf hnn =>
      rename_i g
      have hsz : sizeOf (QF.not g) = 1 + sizeOf g := by simp
      have ihg := ih g (by omega) hcf
      have hnt : ∀ (rest : List Tok) (fuel : Nat), noColonStart rest →
          8 * (tkNot' (QF.not g)).length ≤ fuel →
          pRun fuel .nt (tkNot' (QF.not g) ++ rest) = some (QF.not g, rest) := by
        intro rest fuel hnc hfuel
        rw [tkNot'_negation hnn] at hfuel ⊢
        rw [List.length_cons] at hfuel
        have hlen := tkNot'_length g
        obtain ⟨a, rfl⟩ : ∃ a, fuel = a + 1 := ⟨fuel - 1, by omega⟩
        rw [List.cons_append]
        have h1 : pRun a .nt (tkNot' g ++ rest) = some (g, rest) :=
          ihg.1 rest a hnc (by omega)
        rw [show pRun (a + 1) .nt (Tok.bang :: (tkNot' g ++ rest)) =
            (match pRun a .nt (tkNot' g ++ rest) with
             | some (q, rest') => some (elimNot q, rest')
             | none => none) from rfl,
          h1]
        show some (elimNot g, rest) = some (QF.not g, rest)
        rw [elimNot_eq hnn]
      have handS := andSq_of_nt (fun hs h => QF.noConfusion h) (by simp [tkAnd']) hnt
      have horS := orS_of_andSq (fun hs h => QF.noConfusion h) (by simp [tkOr, tkAnd']) handS
      exact ⟨hnt, handS, horS⟩
    | and hlen hmem hnand =>
      rename_i fs
      have hsz : sizeOf (QF.and fs) = 1 + sizeOf fs := by simp
      have hmNt : ∀ g ∈ fs, ∀ (r : List Tok) (f : Nat), noColonStart r →
          8 * (tkNot' g).length ≤ f → pRun f .nt (tkNot' g ++ r) = some (g, r) := by
        intro g hg
        have h1 := List.sizeOf_lt_of_mem hg
        exact (ih g (by omega) (hmem g hg)).1
      have handS : ∀ (tail : List Tok) (fuel : Nat), andStop tail →
          8 * (tkAnd' (QF.and fs)).length + 2 ≤ fuel →
          pRun fuel .andS (tkAnd' (QF.and fs) ++ tail) = some (QF.and fs, tail) := by
        intro tail fuel hstop hfuel
        rw [show tkAnd' (QF.and fs) = tkAndList fs from by simp [tkAnd']] at hfuel ⊢
        obtain ⟨g, gs, rfl⟩ : ∃ g gs, fs = g :: gs := by
          cases fs with
          | nil => simp at hlen
          | cons g gs => exact ⟨g, gs, rfl⟩
        rw [tkAndList_cons, List.length_append] at hfuel
        have hlg := tkNot'_length g
        obtain ⟨a, rfl⟩ : ∃ a, fuel = a + 1 := ⟨fuel - 1, by omega⟩
        rw [tkAndList_cons, List.append_assoc]
        have h1 : pRun a .nt (tkNot' g ++ (tkAndList gs ++ tail)) =
            some (g, tkAndList gs ++ tail) :=
          hmNt g (by simp) _ _ (noColon_andList gs hstop) (by omega)
        rw [pRun_andS_step h1, appendConj_eq (hnand g (by simp)), List.nil_append,
          pRun_andC_run gs [g] tail a hstop (fun x hx => hmNt x (by simp [hx]))
            (fun x hx => hnand x (by simp [hx])) (by omega),
          List.singleton_append, mkAnd_two hlen]
      have horS := orS_of_andSq (fun hs h => QF.noConfusion h)
        (by simp [tkOr, tkAnd']) handS
      have hnt : ∀ (rest : List Tok) (fuel : Nat), noColonStart rest →
          8 * (tkNot' (QF.and fs)).length ≤ fuel →
          pRun fuel .nt (tkNot' (QF.and fs) ++ rest) = some (QF.and fs, rest) := by
        intro rest fuel hnc hfuel
        rw [show tkNot' (QF.and fs) = .lparen :: (tkAndList fs ++ [.rparen]) from by
          simp [tkNot']] at hfuel ⊢
        simp only [List.length_cons, List.length_append, List.length_singleton] at hfuel
        obtain ⟨a, rfl⟩ : ∃ a, fuel = a + 1 + 1 := ⟨fuel - 2, by omega⟩
        rw [List.cons_append, List.append_assoc, List.singleton_append,
          pRun_nt_skip (Or.inl rfl) rfl]
        have hbound : 8 * (tkOr (QF.and fs)).length + 4 ≤ a := by
          rw [show tkOr (QF.and fs) = tkAndList fs from by simp [tkOr]]
          omega
        have h1 := horS (Tok.rparen :: rest) a trivial hbound
        rw [show tkOr (QF.and fs) = tkAndList fs from by simp [tkOr]] at h1
        exact pRun_atom_lparen h1
      exact ⟨hnt, handS, horS⟩
    | or hlen hmem hnor =>
      rename_i fs
      have hsz : sizeOf (QF.or fs) = 1 + sizeOf fs := by simp
      have hmAnd : ∀ g ∈ fs, ∀ (tail : List Tok) (f : Nat), andStop tail →
          8 * (tkAnd' g).length + 2 ≤ f → pRun f .andS (tkAnd' g ++ tail) = some (g, tail) := by
        intro g hg
        have h1 := List.sizeOf_lt_of_mem hg
        exact (ih g (by omega) (hmem g hg)).2.1
      have horS : ∀ (rest : List Tok) (fuel : Nat), orStop rest →
          8 * (tkOr (QF.or fs)).length + 4 ≤ fuel →
          pRun fuel .orS (tkOr (QF.or fs) ++ rest) = some (QF.or fs, rest) := by
        intro rest fuel hstop hfuel
        rw [show tkOr (QF.or fs) = tkOrList fs from by simp [tkOr]] at hfuel ⊢
        obtain ⟨g, gs, rfl⟩ : ∃ g gs, fs = g :: gs := by
          cases fs with
          | nil => simp at hlen
          | cons g gs => exact ⟨g, gs, rfl⟩
        rw [tkOrList_eq, List.length_append] at hfuel
        obtain ⟨a, rfl⟩ : ∃ a, fuel = a + 1 := ⟨fuel - 1, by omega⟩
        rw [tkOrList_eq, List.append_assoc]
        have h1 : pRun a .andS (tkAnd' g ++ (tkOrTail gs ++ rest)) =
            some (g, tkOrTail gs ++ rest) :=
          hmAnd g (by simp) _ _ (andStop_orTail gs hstop) (by omega)
        rw [pRun_orS_step h1, appendDisj_eq (hnor g (by simp)), List.nil_append,
          pRun_orC_run gs [g] rest a hstop (fun x hx => hmAnd x (by simp [hx]))
            (fun x hx => hnor x (by simp [hx])) (by omega),
          List.singleton_append, mkOr_two hlen]
      have hnt : ∀ (rest : List Tok) (fuel : Nat), noColonStart rest →
          8 * (tkNot' (QF.or fs)).length ≤ fuel →
          pRun fuel .nt (tkNot' (QF.or fs) ++ rest) = some (QF.or fs, rest) := by
        intro rest fuel hnc hfuel
        rw [show tkNot' (QF.or fs) = .lparen :: (tkOrList fs ++ [.rparen]) from by
          simp [tkNot']] at hfuel ⊢
        simp only [List.length_cons, List.length_append, List.length_singleton] at hfuel
        obtain ⟨a, rfl⟩ : ∃ a, fuel = a + 1 + 1 := ⟨fuel - 2, by omega⟩
        rw [List.cons_append, List.append_assoc, List.singleton_append,
          pRun_nt_skip (Or.inl rfl) rfl]
        have hbound : 8 * (tkOr (QF.or fs)).length + 4 ≤ a := by
          rw [show tkOr (QF.or fs) = tkOrList fs from by simp [tkOr]]
          omega
        have h1 := horS (Tok.rparen :: rest) a trivial hbound
        rw [show tkOr (QF.or fs) = tkOrList fs from by simp [tkOr]] at h1
        exact pRun_atom_lparen h1
      have handS := andSq_of_nt (fun hs h => QF.noConfusion h) (by simp [tkAnd']) hnt
      exact ⟨hnt, handS, horS⟩

theorem parseCanonQ {q : QF} (hc : Canon q) :
    pRun (8 * (tkOr q).length + 8) .orS (tkOr q) = some (q, []) := by
  have h := (parseAll (sizeOf q) q le_rfl hc).2.2 [] (8 * (tkOr q).length + 8)
    trivial (by omega)
  simpa using h

theorem parseQuery_print {q : QF} (hc : Canon q) : parseQuery (prOr q) = some q := by
  unfold parseQuery
  rw [lexQ_print hc]
  show (match pOr (8 * (tkOr q).length + 8) (tkOr q) with
        | some (q, []) => some q
        | _ => none) = some q
  unfold pOr
  rw [parseCanonQ hc]

theorem okWord_nil : okWord [] := ⟨List.not_mem_nil _, List.not_mem_nil _⟩

theorem okWord_of_wordChars {l : List Char} (h : l.all isWordChar = true) : okWord l := by
  constructor
  · intro hm
    exact absurd (List.all_eq_true.mp h _ hm) (by decide)
  · intro hm
    exact absurd (List.all_eq_true.mp h _ hm) (by decide)

theorem takeWordChars_all : ∀ l : List Char, (takeWordChars l).1.all isWordChar = true := by
  intro l
  induction l with
  | nil => rfl
  | cons c cs ih =>
    by_cases hc : isWordChar c
    · simp [takeWordChars, hc, ih]
    · simp [takeWordChars, hc]

theorem lexQuoted_okWord : ∀ (s w rest : List Char), lexQuoted s = some (w, rest) →
    okWord w := by
  intro s
  induction s with
  | nil => intro w rest h; simp [lexQuoted] at h
  | cons c cs ih =>
    intro w rest h
    simp only [lexQuoted] at h
    split at h
    · rename_i hq
      rw [Option.some.injEq, Prod.mk.injEq] at h
      obtain ⟨rfl, rfl⟩ := h
      exact okWord_nil
    · rename_i hq
      split at h
      · exact absurd h (by simp)
      · rename_i hb
        split at h
        · exact absurd h (by simp)
        · rename_i w' rest' heq
          rw [Option.some.injEq, Prod.mk.injEq] at h
          obtain ⟨rfl, rfl⟩ := h
          obtain ⟨hq', hb'⟩ := ih w' _ heq
          exact ⟨by simp [Ne.symm hq, hq'], by simp [Ne.symm hb, hb']⟩

theorem tokensOk_cons {t : Tok} {ts : List Tok}
    (ht : ∀ w b, Tok.word w b = t → okWord w) (h : tokensOk ts) : tokensOk (t :: ts) := by
  intro w b hm
  rcases List.mem_cons.mp hm with h1 | h1
  · exact ht w b h1
  · exact h w b h1

theorem tokensOk_nil : tokensOk [] := fun w b hm => absurd hm (List.not_mem_nil _)

theorem map_cons_some {t : Tok} {o : Option (List Tok)} {ts : List Tok}
    (h : o.map (t :: ·) = some ts) : ∃ ts', o = some ts' ∧ ts = t :: ts' := by
  cases o with
  | none => simp at h
  | some ts' => exact ⟨ts', rfl, by simpa using h.symm⟩

theorem lexRun_tokensOk : ∀ (fuel : Nat) (s : List Char) (ts : List Tok),
    lexRun fuel s = some ts → tokensOk ts := by
  intro fuel
  induction fuel with
  | zero => intro s ts h; simp [lexRun] at h
  | succ f ih =>
    intro s ts h
    cases s with
    | nil =>
      have h' : some ([] : List Tok) = some ts := h
      rw [Option.some.injEq] at h'
      subst h'
      exact tokensOk_nil
    | cons c cs =>
      simp only [lexRun] at h
      split at h
      · exact ih _ _ h
      · split at h
        · obtain ⟨ts', e, rfl⟩ := map_cons_some h
          exact tokensOk_cons (fun w b hw => Tok.noConfusion hw) (ih _ _ e)
        · split at h
          · obtain ⟨ts', e, rfl⟩ := map_cons_some h
            exact tokensOk_cons (fun w b hw => Tok.noConfusion hw) (ih _ _ e)
          · split at h
            · obtain ⟨ts', e, rfl⟩ := map_cons_some h
              exact tokensOk_cons (fun w b hw => Tok.noConfusion hw) (ih _ _ e)
            · split at h
              · obtain ⟨ts', e, rfl⟩ := map_cons_some h
                exact tokensOk_cons (fun w b hw => Tok.noConfusion hw) (ih _ _ e)
              · split at h
                · split at h
                  · exact absurd h (by simp)
                  · rename_i w' rest' heq
                    obtain ⟨ts', e, rfl⟩ := map_cons_some h
                    refine tokensOk_cons (fun w b hw => ?_) (ih _ _ e)
                    have : w = w' := by injection hw
                    subst this
                    exact lexQuoted_okWord cs w rest' heq
                · split at h
                  · rename_i hwc
                    obtain ⟨ts', e, rfl⟩ := map_cons_some h
                    refine tokensOk_cons (fun w b hw => ?_) (ih _ _ e)
                    have : w = c :: (takeWordChars cs).1 := by injection hw
                    subst this
                    refine okWord_of_wordChars ?_
                    simp [hwc, takeWordChars_all cs]
                  · exact absurd h (by simp)

theorem canon_and_inv {fs : List QF} (h : Canon (QF.and fs)) :
    2 ≤ fs.length ∧ (∀ g ∈ fs, Canon g) ∧ (∀ g ∈ fs, ∀ hs, g ≠ QF.and hs) := by
  cases h with
  | and h1 h2 h3 => exact ⟨h1, h2, h3⟩

theorem canon_or_inv {fs : List QF} (h : Canon (QF.or fs)) :
    2 ≤ fs.length ∧ (∀ g ∈ fs, Canon g) ∧ (∀ g ∈ fs, ∀ hs, g ≠ QF.or hs) := by
  cases h with
  | or h1 h2 h3 => exact ⟨h1, h2, h3⟩

theorem canon_not_inv {g : QF} (h : Canon (QF.not g)) :
    Canon g ∧ ∀ g', g ≠ QF.not g' := by
  cases h with
  | not h1 h2 => exact ⟨h1, h2⟩

theorem elimNot_canon {g : QF} (h : Canon g) : Canon (elimNot g) := by
  cases g with
  | not g' => exact (canon_not_inv h).1
  | phrase f p => exact Canon.not h (fun g' hg => QF.noConfusion hg)
  | and fs => exact Canon.not h (fun g' hg => QF.noConfusion hg)
  | or fs => exact Canon.not h (fun g' hg => QF.noConfusion hg)

/-- A well-formed conjunct accumulator: nonempty, members canonical and
not AND lists. -/
def goodAndAcc (acc : List QF) : Prop :=
  acc ≠ [] ∧ ∀ g ∈ acc, Canon g ∧ ∀ hs, g ≠ QF.and hs

/-- A well-formed disjunct accumulator. -/
def goodOrAcc (acc : List QF) : Prop :=
  acc ≠ [] ∧ ∀ g ∈ acc, Canon g ∧ ∀ hs, g ≠ QF.or hs

/-- The parser-mode invariant carried through `pRun`. -/
def modeGood : PMode → Prop
  | .andC acc => goodAndAcc acc
  | .orC acc => goodOrAcc acc
  | _ => True

theorem appendConj_good {acc : List QF} {q : QF}
    (hacc : ∀ g ∈ acc, Canon g ∧ ∀ hs, g ≠ QF.and hs) (hq : Canon q) :
    goodAndAcc (appendConj acc q) := by
  by_cases hand : ∃ gs, q = QF.and gs
  · obtain ⟨gs, rfl⟩ := hand
    obtain ⟨hl, hm, hna⟩ := canon_and_inv hq
    show goodAndAcc (acc ++ gs)
    refine ⟨?_, ?_⟩
    · intro hcon
      rw [List.append_eq_nil] at hcon
      rw [hcon.2] at hl
      exact absurd hl (by simp)
    · intro g hg
      rcases List.mem_append.mp hg with h1 | h1
      · exact hacc g h1
      · exact ⟨hm g h1, hna g h1⟩
  · push_neg at hand
    rw [appendConj_eq (fun hs hh => hand hs hh)]
    refine ⟨by simp, ?_⟩
    intro g hg
    rcases List.mem_append.mp hg with h1 | h1
    · exact hacc g h1
    · rw [List.mem_singleton] at h1
      subst h1
      exact ⟨hq, fun hs => hand hs⟩

theorem appendDisj_good {acc : List QF} {q : QF}
    (hacc : ∀ g ∈ acc, Canon g ∧ ∀ hs, g ≠ QF.or hs) (hq : Canon q) :
    goodOrAcc (appendDisj acc q) := by
  by_cases hor : ∃ gs, q = QF.or gs
  · obtain ⟨gs, rfl⟩ := hor
    obtain ⟨hl, hm, hno⟩ := canon_or_inv hq
    show goodOrAcc (acc ++ gs)
    refine ⟨?_, ?_⟩
    · intro hcon
      rw [List.append_eq_nil] at hcon
      rw [hcon.2] at hl
      exact absurd hl (by simp)
    · intro g hg
      rcases List.mem_append.mp hg with h1 | h1
      · exact hacc g h1
      · exact ⟨hm g h1, hno g h1⟩
  · push_neg at hor
    rw [appendDisj_eq (fun hs hh => hor hs hh)]
    refine ⟨by simp, ?_⟩
    intro g hg
    rcases List.mem_append.mp hg with h1 | h1
    · exact hacc g h1
    · rw [List.mem_singleton] at h1
      subst h1
      exact ⟨hq, fun hs => hor hs⟩

theorem mkAnd_canon {acc : List QF} (h : goodAndAcc acc) : Canon (mkAnd acc) := by
  obtain ⟨hne, hm⟩ := h
  match acc with
  | [] => exact absurd rfl hne
  | [q] => exact (hm q (by simp)).1
  | a :: b :: r =>
    show Canon (QF.and (a :: b :: r))
    exact Canon.and (by simp only [List.length_cons]; omega)
      (fun g hg => (hm g hg).1) (fun g hg => (hm g hg).2)

theorem mkOr_canon {acc : List QF} (h : goodOrAcc acc) : Canon (mkOr acc) := by
  obtain ⟨hne, hm⟩ := h
  match acc with
  | [] => exact absurd rfl hne
  | [q] => exact (hm q (by simp)).1
  | a :: b :: r =>
    show Canon (QF.or (a :: b :: r))
    exact Canon.or (by simp only [List.length_cons]; omega)
      (fun g hg => (hm g hg).1) (fun g hg => (hm g hg).2)

theorem pRun_atom_word2 {a : Nat} {w : List Char} {b : Bool} {rest : List Tok}
    (hnw : ∀ p b3 r, rest ≠ Tok.colon :: Tok.word p b3 :: r) :
    pRun (a + 1) .atom (.word w b :: rest) = some (.phrase [] w, rest) := by
  cases rest with
  | nil => rfl
  | cons t2 r2 =>
    cases t2 with
    | colon =>
      cases r2 with
      | nil => rfl
      | cons t3 r3 =>
        cases t3 with
        | word p b3 => exact absurd rfl (hnw p b3 r3)
        | lparen => rfl
        | rparen => rfl
        | colon => rfl
        | bang => rfl
    | lparen => rfl
    | rparen => rfl
    | bang => rfl
    | word w2 b2 => rfl

theorem pRun_canon : ∀ (fuel : Nat) (mode : PMode) (ts : List Tok) (q : QF)
    (rest : List Tok), tokensOk ts → modeGood mode → pRun fuel mode ts = some (q, rest) →
    Canon q ∧ tokensOk rest := by
  intro fuel
  induction fuel with
  | zero => intro mode ts q rest _ _ h; exact absurd h (by simp [pRun])
  | succ n ih =>
    intro mode ts q rest hts hmode h
    cases mode with
    | atom =>
      cases ts with
      | nil => exact absurd h (by simp [pRun])
      | cons t ts₁ =>
        cases t with
        | rparen => exact absurd h (by simp [pRun])
        | bang => exact absurd h (by simp [pRun])
        | lparen =>
          rw [show pRun (n + 1) .atom (Tok.lparen :: ts₁) =
              (match pRun n .orS ts₁ with
               | some (q', .rparen :: r') => some (q', r')
               | _ => none) from rfl] at h
          split at h
          · rename_i q' r' heq
            rw [Option.some.injEq, Prod.mk.injEq] at h
            obtain ⟨rfl, rfl⟩ := h
            obtain ⟨hq', hr'⟩ := ih .orS ts₁ q' (.rparen :: r') (tokensOk_tail hts)
              trivial heq
            exact ⟨hq', tokensOk_tail hr'⟩
          · exact absurd h (by simp)
        | colon =>
          cases ts₁ with
          | nil => exact absurd h (by simp [pRun])
          | cons t₂ ts₂ =>
            cases t₂ with
            | lparen => exact absurd h (by simp [pRun])
            | rparen => exact absurd h (by simp [pRun])
            | colon => exact absurd h (by simp [pRun])
            | bang => exact absurd h (by simp [pRun])
            | word p b =>
              rw [show pRun (n + 1) .atom (Tok.colon :: Tok.word p b :: ts₂) =
                  some (QF.phrase [] p, ts₂) from rfl] at h
              rw [Option.some.injEq, Prod.mk.injEq] at h
              obtain ⟨rfl, rfl⟩ := h
              exact ⟨Canon.phrase okWord_nil (hts p b (by simp)) (by decide),
                tokensOk_tail (tokensOk_tail hts)⟩
        | word w b =>
          by_cases hw3 : ∃ p b3 r, ts₁ = Tok.colon :: Tok.word p b3 :: r
          · obtain ⟨p, b3, r, rfl⟩ := hw3
            rw [show pRun (n + 1) .atom (Tok.word w b :: Tok.colon :: Tok.word p b3 :: r) =
                some (QF.phrase (normField w) p, r) from rfl] at h
            rw [Option.some.injEq, Prod.mk.injEq] at h
            obtain ⟨rfl, rfl⟩ := h
            refine ⟨Canon.phrase ?_ (hts p b3 (by simp)) ?_,
              tokensOk_tail (tokensOk_tail (tokensOk_tail hts))⟩
            · by_cases hw : w = "_msg".data
              · rw [show normField w = [] from by simp [normField, hw]]
                exact okWord_nil
              · rw [show normField w = w from by simp [normField, hw]]
                exact hts w b (by simp)
            · by_cases hw : w = "_msg".data
              · rw [show normField w = [] from by simp [normField, hw]]
                decide
              · rw [show normField w = w from by simp [normField, hw]]
                exact hw
          · push_neg at hw3
            rw [pRun_atom_word2 (fun p b3 r => hw3 p b3 r)] at h
            rw [Option.some.injEq, Prod.mk.injEq] at h
            obtain ⟨rfl, rfl⟩ := h
            exact ⟨Canon.phrase okWord_nil (hts w b (by simp)) (by decide),
              tokensOk_tail hts⟩
    | nt =>
      cases ts with
      | nil => exact absurd h (by simp [pRun])
      | cons t ts₁ =>
        cases t with
        | bang =>
          rw [show pRun (n + 1) .nt (Tok.bang :: ts₁) =
              (match pRun n .nt ts₁ with
               | some (q', r') => some (elimNot q', r')
               | none => none) from rfl] at h
          split at h
          · rename_i q' r' heq
            rw [Option.some.injEq, Prod.mk.injEq] at h
            obtain ⟨rfl, rfl⟩ := h
            obtain ⟨hq', hr'⟩ := ih .nt ts₁ q' r' (tokensOk_tail hts) trivial heq
            exact ⟨elimNot_canon hq', hr'⟩
          · exact absurd h (by simp)
        | lparen => exact ih .atom _ q rest hts trivial h
        | rparen => exact ih .atom _ q rest hts trivial h
        | colon => exact ih .atom _ q rest hts trivial h
        | word w b =>
          rw [show pRun (n + 1) .nt (Tok.word w b :: ts₁) =
              (if isKwTok (Tok.word w b) ("not".data) = true
               then match pRun n .nt ts₁ with
                    | some (q', r') => some (elimNot q', r')
                    | none => none
               else pRun n .atom (Tok.word w b :: ts₁)) from rfl] at h
          split at h
          · split at h
            · rename_i q' r' heq
              rw [Option.some.injEq, Prod.mk.injEq] at h
              obtain ⟨rfl, rfl⟩ := h
              obtain ⟨hq', hr'⟩ := ih .nt ts₁ q' r' (tokensOk_tail hts) trivial heq
              exact ⟨elimNot_canon hq', hr'⟩
            · exact absurd h (by simp)
          · exact ih .atom _ q rest hts trivial h
    | andS =>
      rw [show pRun (n + 1) .andS ts =
          (match pRun n .nt ts with
           | none => none
           | some (q', r') => pRun n (.andC (appendConj [] q')) r') from rfl] at h
      split at h
      · exact absurd h (by simp)
      · rename_i q' r' heq
        obtain ⟨hq', hr'⟩ := ih .nt ts q' r' hts trivial heq
        exact ih (.andC (appendConj [] q')) r' q rest hr' (appendConj_good (by simp) hq') h
    | orS =>
      rw [show pRun (n + 1) .orS ts =
          (match pRun n .andS ts with
           | none => none
           | some (q', r') => pRun n (.orC (appendDisj [] q')) r') from rfl] at h
      split at h
      · exact absurd h (by simp)
      · rename_i q' r' heq
        obtain ⟨hq', hr'⟩ := ih .andS ts q' r' hts trivial heq
        exact ih (.orC (appendDisj [] q')) r' q rest hr' (appendDisj_good (by simp) hq') h
    | andC acc =>
      cases ts with
      | nil =>
        rw [show pRun (n + 1) (.andC acc) [] = some (mkAnd acc, []) from rfl] at h
        rw [Option.some.injEq, Prod.mk.injEq] at h
        obtain ⟨rfl, rfl⟩ := h
        exact ⟨mkAnd_canon hmode, tokensOk_nil⟩
      | cons t ts₁ =>
        cases t with
        | rparen =>
          rw [show pRun (n + 1) (.andC acc) (Tok.rparen :: ts₁) =
              some (mkAnd acc, Tok.rparen :: ts₁) from rfl] at h
          rw [Option.some.injEq, Prod.mk.injEq] at h
          obtain ⟨rfl, rfl⟩ := h
          exact ⟨mkAnd_canon hmode, hts⟩
        | lparen =>
          rw [show pRun (n + 1) (.andC acc) (Tok.lparen :: ts₁) =
              (if isKwTok Tok.lparen ("or".data) = true
               then some (mkAnd acc, Tok.lparen :: ts₁)
               else match pRun n .nt
                      (if isKwTok Tok.lparen ("and".data) = true
                       then ts₁ else Tok.lparen :: ts₁) with
                    | none => none
                    | some (q', r') => pRun n (.andC (appendConj acc q')) r')
              from rfl] at h
          split at h
          · rw [Option.some.injEq, Prod.mk.injEq] at h
            obtain ⟨rfl, rfl⟩ := h
            exact ⟨mkAnd_canon hmode, hts⟩
          · split at h
            · exact absurd h (by simp)
            · rename_i q' r' heq
              have hin : tokensOk (if isKwTok Tok.lparen ("and".data) = true
                  then ts₁ else Tok.lparen :: ts₁) := by
                split
                · exact tokensOk_tail hts
                · exact hts
              obtain ⟨hq', hr'⟩ := ih .nt _ q' r' hin trivial heq
              exact ih (.andC (appendConj acc q')) r' q rest hr' (appendConj_good hmode.2 hq') h
        | colon =>
          rw [show pRun (n + 1) (.andC acc) (Tok.colon :: ts₁) =
              (if isKwTok Tok.colon ("or".data) = true
               then some (mkAnd acc, Tok.colon :: ts₁)
               else match pRun n .nt
                      (if isKwTok Tok.colon ("and".data) = true
                       then ts₁ else Tok.colon :: ts₁) with
                    | none => none
                    | some (q', r') => pRun n (.andC (appendConj acc q')) r')
              from rfl] at h
          split at h
          · rw [Option.some.injEq, Prod.mk.injEq] at h
            obtain ⟨rfl, rfl⟩ := h
            exact ⟨mkAnd_canon hmode, hts⟩
          · split at h
            · exact absurd h (by simp)
            · rename_i q' r' heq
              have hin : tokensOk (if isKwTok Tok.colon ("and".data) = true
                  then ts₁ else Tok.colon :: ts₁) := by
                split
                · exact tokensOk_tail hts
                · exact hts
              obtain ⟨hq', hr'⟩ := ih .nt _ q' r' hin trivial heq
              exact ih (.andC (appendConj acc q')) r' q rest hr' (appendConj_good hmode.2 hq') h
        | bang =>
          rw [show pRun (n + 1) (.andC acc) (Tok.bang :: ts₁) =
              (if isKwTok Tok.bang ("or".data) = true
               then some (mkAnd acc, Tok.bang :: ts₁)
               else match pRun n .nt
                      (if isKwTok Tok.bang ("and".data) = true
                       then ts₁ else Tok.bang :: ts₁) with
                    | none => none
                    | some (q', r') => pRun n (.andC (appendConj acc q')) r')
              from rfl] at h
          split at h
          · rw [Option.some.injEq, Prod.mk.injEq] at h
            obtain ⟨rfl, rfl⟩ := h
            exact ⟨mkAnd_canon hmode, hts⟩
          · split at h
            · exact absurd h (by simp)
            · rename_i q' r' heq
              have hin : tokensOk (if isKwTok Tok.bang ("and".data) = true
                  then ts₁ else Tok.bang :: ts₁) := by
                split
                · exact tokensOk_tail hts
                · exact hts
              obtain ⟨hq', hr'⟩ := ih .nt _ q' r' hin trivial heq
              exact ih (.andC (appendConj acc q')) r' q rest hr' (appendConj_good hmode.2 hq') h
        | word w b =>
          rw [show pRun (n + 1) (.andC acc) (Tok.word w b :: ts₁) =
              (if isKwTok (Tok.word w b) ("or".data) = true
               then some (mkAnd acc, Tok.word w b :: ts₁)
               else match pRun n .nt
                      (if isKwTok (Tok.word w b) ("and".data) = true
                       then ts₁ else Tok.word w b :: ts₁) with
                    | none => none
                    | some (q', r') => pRun n (.andC (appendConj acc q')) r')
              from rfl] at h
          split at h
          · rw [Option.some.injEq, Prod.mk.injEq] at h
            obtain ⟨rfl, rfl⟩ := h
            exact ⟨mkAnd_canon hmode, hts⟩
          · split at h
            · exact absurd h (by simp)
            · rename_i q' r' heq
              have hin : tokensOk (if isKwTok (Tok.word w b) ("and".data) = true
                  then ts₁ else Tok.word w b :: ts₁) := by
                split
                · exact tokensOk_tail hts
                · exact hts
              obtain ⟨hq', hr'⟩ := ih .nt _ q' r' hin trivial heq
              exact ih (.andC (appendConj acc q')) r' q rest hr' (appendConj_good hmode.2 hq') h
    | orC acc =>
      cases ts with
      | nil =>
        rw [show pRun (n + 1) (.orC acc) [] = some (mkOr acc, []) from rfl] at h
        rw [Option.some.injEq, Prod.mk.injEq] at h
        obtain ⟨rfl, rfl⟩ := h
        exact ⟨mkOr_canon hmode, tokensOk_nil⟩
      | cons t ts₁ =>
        rw [show pRun (n + 1) (.orC acc) (t :: ts₁) =
            (if isKwTok t ("or".data) = true
             then match pRun n .andS ts₁ with
                  | none => none
                  | some (q', r') => pRun n (.orC (appendDisj acc q')) r'
             else some (mkOr acc, t :: ts₁)) from rfl] at h
        split at h
        · split at h
          · exact absurd h (by simp)
          · rename_i q' r' heq
            obtain ⟨hq', hr'⟩ := ih .andS ts₁ q' r' (tokensOk_tail hts) trivial heq
            exact ih (.orC (appendDisj acc q')) r' q rest hr' (appendDisj_good hmode.2 hq') h
        · rw [Option.some.injEq, Prod.mk.injEq] at h
          obtain ⟨rfl, rfl⟩ := h
          exact ⟨mkOr_canon hmode, hts⟩

theorem parseQuery_canon {s : List Char} {q : QF} (h : parseQuery s = some q) :
    Canon q := by
  unfold parseQuery at h
  split at h
  · exact absurd h (by simp)
  · rename_i ts hlex
    split at h
    · rename_i q' hpor
      rw [Option.some.injEq] at h
      subst h
      have hok : tokensOk ts := lexRun_tokensOk _ _ _ hlex
      exact (pRun_canon (8 * ts.length + 8) .orS ts _ _ hok trivial hpor).1
    · exact absurd h (by simp)

/-- Round-trip on the modelled sub-language only: every query string `s`
accepted by the fragment parser `parseQuery` yields an AST `q` whose
canonical print `prOr q` is itself accepted, parses back to exactly `q`,
and is a fixed point of parse-then-print.  This covers only the fragment
modelled above, not the full query language. -/
theorem parseFragment_roundTrip {s : List Char} {q : QF} (h : parseQuery s = some q) :
    parseQuery (prOr q) = some q ∧
      (parseQuery (prOr q)).map prOr = some (prOr q) := by
  have hc := parseQuery_canon h
  have h1 := parseQuery_print hc
  exact ⟨h1, by rw [h1]; rfl⟩

theorem parseFragment_roundTrip_check :
    parseQuery (prOr (QF.or [QF.phrase "foo".data "bar".data, QF.phrase [] "baz".data])) =
        some (QF.or [QF.phrase "foo".data "bar".data, QF.phrase [] "baz".data]) ∧
      (parseQuery (prOr (QF.or [QF.phrase "foo".data "bar".data,
          QF.phrase [] "baz".data]))).map prOr =
        some (prOr (QF.or [QF.phrase "foo".data "bar".data, QF.phrase [] "baz".data])) :=
  parseFragment_roundTrip (s := "foo:bar or baz".data) rfl
